import Mathlib

/-! compose2kube: field mappers of the replication-controller translation.

A shallow embedding of `createReplicationController.go` and
`processDockerCompose.go`.

Conventions of the embedding

* A Go `string` is modelled as `Str = List Char`, the sequence of its Unicode
  code points (the descriptor strings come out of a YAML parser and are valid
  UTF-8). All separators the program searches for are ASCII, so searching by
  code point and searching by byte agree. On a service name the program only
  uses `len`, slicing, concatenation and comparison, which count bytes in Go: a
  service name is the list of its bytes (for a name of ASCII characters, the
  only ones a resource name may hold, that is the list of its characters).
* `log.Fatalf` terminates the process: a function that may reach it returns
  `Fatal α = Except Str α`, the error carrying the formatted diagnostic.
  `log.Printf` only writes a log line and is not part of the returned value.
* A Go `map[string]string` is modelled as an association list `GoMap`
  (`GoMap.set` overwrites an existing key). The *input* label map is given as
  the list of its entries in the order in which `range` happens to visit them.
* Package-level state and functions of the repository that live in other files
  (`asJSON`, `outputDir`, `calculateNamespace`, `configureScale`,
  `configureHealthCheck`) are fields of `Env`; for a whole run, together with
  `cleanServices`, `createService` and the encoders and file operations of the
  libraries, they are fields of `Externals`.
* What a run leaves behind is a `World`: the files written and the lines
  printed, in order. A run that ends in `log.Fatalf` keeps the world it had
  reached. The contents of a file are those of the last write to its path
  (`World.contents`).
* The functions of the Go standard library that the program calls
  (`strings.*`, `strconv.ParseInt`, `unicode.IsSpace`) are modelled in the
  namespaces `strings`, `strconv` and `unicode` after their documented behaviour.
-/

set_option autoImplicit false
set_option linter.dupNamespace false

deriving instance DecidableEq for Except

/-- Go strings, as sequences of code points. -/
abbrev Str := List Char

/-- Result of a computation that may end in `log.Fatalf` (the diagnostic is the error). -/
abbrev Fatal (α : Type) := Except Str α

/-- The double-quote character. -/
def dquote : Char := Char.ofNat 34

/-- The backslash character. -/
def backslash : Char := Char.ofNat 92

/-! ## Go standard library -/

namespace unicode

/-- Go `unicode.IsSpace`: the Latin-1 spaces `\t \n \v \f \r`, space, U+0085, U+00A0,
and the other code points with the White_Space property. -/
def IsSpace (r : Char) : Bool :=
  let n := r.toNat
  if n ≤ 0xFF then
    n = 0x09 || n = 0x0A || n = 0x0B || n = 0x0C || n = 0x0D || n = 0x20 || n = 0x85 || n = 0xA0
  else
    n = 0x1680 || (0x2000 ≤ n && n ≤ 0x200A) || n = 0x2028 || n = 0x2029 || n = 0x202F
      || n = 0x205F || n = 0x3000

end unicode

namespace strings

/-- Go `strings.Index(s, substr)`: the position of the first occurrence of `substr`
in `s`, or `-1`. (Positions count code points; the program only tests the sign.) -/
def Index : Str → Str → Int
  | [], substr => if substr = [] then 0 else -1
  | c :: t, substr =>
    if substr.isPrefixOf (c :: t) then 0
    else
      let i := Index t substr
      if i < 0 then -1 else i + 1

/-- Go `strings.Contains(s, substr)`, defined there as `Index(s, substr) >= 0`. -/
def Contains (s substr : Str) : Bool := decide (Index s substr ≥ 0)

/-- Puts a character in front of the first piece of a list of pieces. -/
def consHead (c : Char) : List Str → List Str
  | [] => [[c]]
  | p :: ps => (c :: p) :: ps

/-- Scanning loop of `Split` for a non-empty separator: `skip` counts the characters
of an already matched separator that are still to be passed over. -/
def splitLoop (sep : Str) : Str → Nat → List Str
  | [], _ => [[]]
  | _ :: t, skip + 1 => splitLoop sep t skip
  | c :: t, 0 =>
    if sep.isPrefixOf (c :: t) then [] :: splitLoop sep t (sep.length - 1)
    else consHead c (splitLoop sep t 0)

/-- Go `strings.Split(s, sep)`: the substrings between the non-overlapping occurrences
of `sep`, scanned from the left; with an empty `sep`, one piece per code point. -/
def Split (s sep : Str) : List Str :=
  if sep = [] then s.map (fun c => [c]) else splitLoop sep s 0

/-- Scanning loop of `Replace` for a non-empty `old`. -/
def replaceLoop (old new : Str) : Str → Nat → Str
  | [], _ => []
  | _ :: t, skip + 1 => replaceLoop old new t skip
  | c :: t, 0 =>
    if old.isPrefixOf (c :: t) then new ++ replaceLoop old new t (old.length - 1)
    else c :: replaceLoop old new t 0

/-- Go `strings.Replace(s, old, new, -1)`: every non-overlapping occurrence of `old`,
scanned from the left, is replaced by `new`; an empty `old` matches before every code
point and at the end. -/
def Replace (s old new : Str) : Str :=
  if old = [] then new ++ (s.map (fun c => c :: new)).flatten else replaceLoop old new s 0

/-- Go `strings.Trim(s, cutset)`: `s` without the leading and trailing code points
contained in `cutset`. -/
def Trim (s cutset : Str) : Str :=
  (s.dropWhile (fun c => cutset.contains c)).rdropWhile (fun c => cutset.contains c)

/-- Go `strings.TrimSpace(s)`: `s` without leading and trailing white space. -/
def TrimSpace (s : Str) : Str :=
  (s.dropWhile unicode.IsSpace).rdropWhile unicode.IsSpace

end strings

namespace strconv

/-- The two errors of `strconv`: `ErrSyntax` and `ErrRange`. -/
inductive NumError where
  | ErrSyntax
  | ErrRange
  deriving DecidableEq, Repr

/-- Digit value of one character in `ParseUint`: decimal digits, then letters (either
case) as `10 ..`; any other byte, hence any non-ASCII code point, has none. -/
def digitVal (c : Char) : Option Nat :=
  let b := c.toNat
  if 48 ≤ b ∧ b ≤ 57 then some (b - 48)
  else if b < 128 ∧ 97 ≤ (b ||| 32) ∧ (b ||| 32) ≤ 122 then some ((b ||| 32) - 97 + 10)
  else none

/-- The constant `maxUint64`. -/
def maxUint64 : Nat := 2 ^ 64 - 1

/-- Digit loop of `ParseUint` (no base prefix, no underscores: the base is given
explicitly and non-zero). `n` is the `uint64` accumulator. -/
def parseUintLoop (base maxVal : Nat) : Str → Nat → Except NumError Nat
  | [], n => .ok n
  | c :: t, n =>
    match digitVal c with
    | none => .error .ErrSyntax
    | some d =>
      if d ≥ base then .error .ErrSyntax
      else if n ≥ maxUint64 / base + 1 then .error .ErrRange
      else
        let n' := (n * base) % 2 ^ 64
        let n1 := (n' + d) % 2 ^ 64
        if n1 < n' ∨ n1 > maxVal then .error .ErrRange
        else parseUintLoop base maxVal t n1

/-- Go `strconv.ParseUint(s, 10, bitSize)` for `0 < bitSize ≤ 64`. -/
def ParseUint (s : Str) (bitSize : Nat) : Except NumError Nat :=
  if s = [] then .error .ErrSyntax
  else parseUintLoop 10 (2 ^ bitSize - 1) s 0

/-- Go `strconv.ParseInt(s, 10, bitSize)` for `0 < bitSize ≤ 64`: an optional sign,
then `ParseUint`, then the signed range check. Only the error kind is kept on
failure (the program discards the clamped value). -/
def ParseInt (s : Str) (bitSize : Nat) : Except NumError Int :=
  match s with
  | [] => .error .ErrSyntax
  | c :: t =>
    let neg := decide (c = '-')
    let s1 := if c = '+' ∨ c = '-' then t else c :: t
    match ParseUint s1 bitSize with
    | .error .ErrSyntax => .error .ErrSyntax
    | .error .ErrRange => .error .ErrRange
    | .ok un =>
      let cutoff := 2 ^ (bitSize - 1)
      if ¬ neg ∧ un ≥ cutoff then .error .ErrRange
      else if neg ∧ un > cutoff then .error .ErrRange
      else .ok (if neg then - (un : Int) else (un : Int))

end strconv

/-- Go conversion `int32(x)` of an `int64`: the low 32 bits, read as two's complement. -/
def int32 (x : Int) : Int := (x + 2 ^ 31) % 2 ^ 32 - 2 ^ 31

/-- Go `fmt` verb `%s` applied to a `[]string`: the elements between brackets,
separated by blanks. -/
def fmtStrings (parts : List Str) : Str :=
  "[".data ++ " ".data.intercalate parts ++ "]".data

/-! ## Go maps -/

/-- A Go `map[string]string`. -/
abbrev GoMap := List (Str × Str)

/-- The assignment `m[k] = v`. -/
def GoMap.set : GoMap → Str → Str → GoMap
  | [], k, v => [(k, v)]
  | (k', v') :: m, k, v => if k' = k then (k, v) :: m else (k', v') :: GoMap.set m k v

/-- The lookup `m[k]`, with `none` for an absent key. -/
def GoMap.get (m : GoMap) (k : Str) : Option Str := List.lookup k m

/-- The keys of a map. -/
def GoMap.keys (m : GoMap) : List Str := m.map Prod.fst

/-! ## Data model -/

/-- The fields of libcompose `config.ServiceConfig` that the translation reads.
`Labels` lists the entries of the label map in iteration order; `Volumes` is `none`
for a nil `*Volumes`, else the `String()` form of each volume. -/
structure ServiceConfig where
  Image : Str
  Command : List Str
  Entrypoint : List Str
  Ports : List Str
  Environment : List Str
  Labels : List (Str × Str)
  Volumes : Option (List Str)
  Restart : Str
  deriving DecidableEq, Repr

/-- Kubernetes `api.RestartPolicy`. -/
inductive RestartPolicy where
  | RestartPolicyAlways
  | RestartPolicyOnFailure
  | RestartPolicyNever
  deriving DecidableEq, Repr

/-- Kubernetes `api.ContainerPort` (only the field the program sets; an `int32`). -/
structure ContainerPort where
  ContainerPort : Int
  deriving DecidableEq, Repr

/-- Kubernetes `api.EnvVar`. -/
structure EnvVar where
  Name : Str
  Value : Str
  deriving DecidableEq, Repr

/-- Kubernetes `api.VolumeMount`. -/
structure VolumeMount where
  Name : Str
  ReadOnly : Bool
  MountPath : Str
  deriving DecidableEq, Repr

/-- Kubernetes `api.HostPathVolumeSource`. -/
structure HostPathVolumeSource where
  Path : Str
  deriving DecidableEq, Repr

/-- Kubernetes `api.VolumeSource` (only the host-path variant is ever set). -/
structure VolumeSource where
  HostPath : Option HostPathVolumeSource
  deriving DecidableEq, Repr

/-- Kubernetes `api.Volume`. -/
structure Volume where
  Name : Str
  VolumeSource : VolumeSource
  deriving DecidableEq, Repr

/-- The readiness probe built by `configureHealthCheck` (another file): uninterpreted. -/
abbrev Probe := Option Str

/-- Kubernetes `api.Container`, with the fields the program sets. -/
structure Container where
  Name : Str
  Image : Str
  Args : List Str
  Command : List Str
  Ports : List ContainerPort
  Env : List EnvVar
  ReadinessProbe : Probe
  VolumeMounts : List VolumeMount
  deriving DecidableEq, Repr

/-- Kubernetes `api.PodSpec`. -/
structure PodSpec where
  NodeSelector : GoMap
  Containers : List Container
  RestartPolicy : RestartPolicy
  Volumes : List Volume
  deriving DecidableEq, Repr

/-- Kubernetes `api.ObjectMeta`. -/
structure ObjectMeta where
  Name : Str
  Namespace : Str
  Labels : GoMap
  deriving DecidableEq, Repr

/-- Kubernetes `api.PodTemplateSpec`. -/
structure PodTemplateSpec where
  ObjectMeta : ObjectMeta
  Spec : PodSpec
  deriving DecidableEq, Repr

/-- Kubernetes `api.ReplicationControllerSpec`. -/
structure ReplicationControllerSpec where
  Replicas : Int
  Selector : GoMap
  Template : PodTemplateSpec
  deriving DecidableEq, Repr

/-- Kubernetes `unversioned.TypeMeta`. -/
structure TypeMeta where
  Kind : Str
  APIVersion : Str
  deriving DecidableEq, Repr

/-- Kubernetes `api.ReplicationController`. -/
structure ReplicationController where
  TypeMeta : TypeMeta
  ObjectMeta : ObjectMeta
  Spec : ReplicationControllerSpec
  deriving DecidableEq, Repr

/-- Package-level configuration and the repository functions defined in other files:
the format flag `asJSON`, the directory `outputDir`, the value returned by
`calculateNamespace()`, and `configureScale` / `configureHealthCheck` as functions of
the service name (their `rancherCompose` argument is fixed for a run). -/
structure Env where
  asJSON : Bool
  outputDir : Str
  calculateNamespace : Str
  configureScale : Str → Fatal Int
  configureHealthCheck : Str → Fatal Probe

/-! ## createReplicationController.go -/

/-- Go `configureRestartPolicy`. -/
def configureRestartPolicy (name : Str) (service : ServiceConfig) : Fatal RestartPolicy :=
  if service.Restart = "".data ∨ service.Restart = "always".data then
    .ok .RestartPolicyAlways
  else if service.Restart = "no".data then
    .ok .RestartPolicyNever
  else if service.Restart = "on-failure".data then
    .ok .RestartPolicyOnFailure
  else
    .error ("Unknown restart policy ".data ++ service.Restart ++ " for service ".data ++ name)

/-- Body of the loop of `configurePorts` for one port string: the container port, or
the fatal diagnostic. -/
def configurePort (name : Str) (port : Str) : Fatal ContainerPort :=
  let port := strings.Trim port [dquote]
  let port := strings.TrimSpace port
  let port : Fatal Str :=
    if strings.Contains port ":".data then
      match strings.Split port ":".data with
      | _ :: p :: _ => .ok p
      | _ => .error "panic: runtime error: index out of range".data
    else .ok port
  match port with
  | .error e => .error e
  | .ok port =>
    match strconv.ParseInt port 32 with
    | .error _ =>
      .error ("Invalid container port ".data ++ port ++ " for service ".data ++ name)
    | .ok portNumber => .ok { ContainerPort := int32 portNumber }

/-- The `for ... range service.Ports` loop of `configurePorts`, with the slice built
so far. -/
def configurePortsLoop (name : Str) : List Str → List ContainerPort → Fatal (List ContainerPort)
  | [], ports => .ok ports
  | port :: rest, ports =>
    match configurePort name port with
    | .error e => .error e
    | .ok p => configurePortsLoop name rest (ports ++ [p])

/-- Go `configurePorts`. -/
def configurePorts (name : Str) (service : ServiceConfig) : Fatal (List ContainerPort) :=
  configurePortsLoop name service.Ports []

/-- The `for ... range service.Environment` loop of `configureVariables`, with the
slice built so far. Indexing `parts[0]`, `parts[1]` out of range would be a run-time
panic. -/
def configureVariablesLoop (env : Env) : List Str → List EnvVar → Fatal (List EnvVar)
  | [], envs => .ok envs
  | e :: rest, envs =>
    if strings.Contains e "=".data then
      match strings.Split e "=".data with
      | ename :: p1 :: _ =>
        let evalue := if env.asJSON = true then p1 else "\rYMLMARSHALBUG".data ++ p1
        configureVariablesLoop env rest (envs ++ [{ Name := ename, Value := evalue }])
      | _ => .error "panic: runtime error: index out of range".data
    else configureVariablesLoop env rest envs

/-- Go `configureVariables`. -/
def configureVariables (env : Env) (service : ServiceConfig) : Fatal (List EnvVar) :=
  configureVariablesLoop env service.Environment
    [{ Name := "NAMESPACE".data, Value := env.calculateNamespace }]

/-- The `for index, label := range service.Labels` loop of `configureLabels`. -/
def configureLabelsLoop : List (Str × Str) → GoMap → GoMap
  | [], labels => labels
  | (index, label) :: rest, labels =>
    let invalid := strings.Index index "io.rancher.scheduler".data
    if invalid ≥ 0 then configureLabelsLoop rest labels
    else configureLabelsLoop rest (labels.set index label)

/-- Go `configureLabels`. -/
def configureLabels (shortName : Str) (service : ServiceConfig) : GoMap :=
  configureLabelsLoop service.Labels (GoMap.set [] "service".data shortName)

/-- The `for index, label := range service.Labels` loop of `configureAffinity`. -/
def configureAffinityLoop : List (Str × Str) → GoMap → GoMap
  | [], affinity => affinity
  | (index, label) :: rest, affinity =>
    if index = "io.rancher.scheduler.affinity:host_label".data then
      match strings.Split label "=".data with
      | [k, v] => configureAffinityLoop rest (affinity.set k v)
      | _ => configureAffinityLoop rest affinity
    else configureAffinityLoop rest affinity

/-- Go `configureAffinity` (`shortName` is unused there too). -/
def configureAffinity (_shortName : Str) (service : ServiceConfig) : GoMap :=
  configureAffinityLoop service.Labels []

/-- The `for _, partOpt := range parts[2:]` loop of `configureVolumes`: the `break`s
leave the `switch`, not the loop, so every option is visited. -/
def readOnlyLoop : List Str → Bool → Bool
  | [], partReadOnly => partReadOnly
  | partOpt :: rest, partReadOnly =>
    if partOpt = "ro".data then readOnlyLoop rest true
    else if partOpt = "rw".data then readOnlyLoop rest false
    else readOnlyLoop rest partReadOnly

/-- The `for _, volumestr := range service.Volumes.Volumes` loop of `configureVolumes`. -/
def configureVolumesLoop :
    List Str → List VolumeMount → List Volume → Fatal (List VolumeMount × List Volume)
  | [], volumemounts, volumes => .ok (volumemounts, volumes)
  | volumestr :: rest, volumemounts, volumes =>
    let parts := strings.Split volumestr ":".data
    if parts.length < 2 then
      .error ("Volumes without host path are not supported: ".data ++ fmtStrings parts)
    else
      match parts with
      | partHostDir :: partContainerDir :: opts =>
        let partReadOnly := if parts.length > 2 then readOnlyLoop opts false else false
        let partName := strings.Replace partHostDir "/".data "".data
        configureVolumesLoop rest
          (volumemounts ++
            [{ Name := partName, ReadOnly := partReadOnly, MountPath := partContainerDir }])
          (volumes ++
            [{ Name := partName, VolumeSource := { HostPath := some { Path := partHostDir } } }])
      | _ => .error "panic: runtime error: index out of range".data

/-- Go `configureVolumes`. -/
def configureVolumes (service : ServiceConfig) : Fatal (List VolumeMount × List Volume) :=
  match service.Volumes with
  | none => .ok ([], [])
  | some vols => configureVolumesLoop vols [] []

/-- Go `createReplicationController`. The calls are made in the order in which Go
evaluates the composite literal, then `configureVolumes`; the first fatal error ends
the run. -/
def createReplicationController (env : Env) (name shortName : Str) (service : ServiceConfig) :
    Fatal ReplicationController := do
  let replicas ← env.configureScale name
  let labels := configureLabels shortName service
  let nodeSelector := configureAffinity shortName service
  let ports ← configurePorts name service
  let envs ← configureVariables env service
  let probe ← env.configureHealthCheck name
  let restartPolicy ← configureRestartPolicy name service
  let (volumemounts, volumes) ← configureVolumes service
  pure
    { TypeMeta := { Kind := "ReplicationController".data, APIVersion := "v1".data }
      ObjectMeta :=
        { Name := shortName
          Namespace := env.calculateNamespace
          Labels := [("service".data, shortName)] }
      Spec :=
        { Replicas := replicas
          Selector := [("service".data, shortName)]
          Template :=
            { ObjectMeta := { Name := [], Namespace := [], Labels := labels }
              Spec :=
                { NodeSelector := nodeSelector
                  Containers :=
                    [{ Name := shortName
                       Image := service.Image
                       Args := service.Command
                       Command := service.Entrypoint
                       Ports := ports
                       Env := envs
                       ReadinessProbe := probe
                       VolumeMounts := volumemounts }]
                  RestartPolicy := restartPolicy
                  Volumes := volumes } } } }

/-! ## Notions used to state the properties of the port mapper -/

/-- A decimal digit `0 .. 9`. -/
def isDecimalDigit (c : Char) : Bool := decide (48 ≤ c.toNat ∧ c.toNat ≤ 57)

/-- The number denoted by the decimal digits of `n` followed by the digits `ds`. -/
def digitsValueFrom (n : Nat) (ds : Str) : Nat :=
  ds.foldl (fun n c => 10 * n + (c.toNat - 48)) n

/-- The number denoted by a string of decimal digits, most significant first. -/
def digitsValue (ds : Str) : Nat := digitsValueFrom 0 ds

/-- The value of a text as a base-10 signed 32-bit integer, if it is one: an optional
sign `+` or `-`, then one or more decimal digits, denoting a number between `-2^31`
and `2^31 - 1`. -/
def int32TextValue (t : Str) : Option Int :=
  let neg := t.head? = some '-'
  let ds := if t.head? = some '-' ∨ t.head? = some '+' then t.tail else t
  if ds ≠ [] ∧ ds.all isDecimalDigit = true then
    let v : Int := if neg then - (digitsValue ds : Int) else (digitsValue ds : Int)
    if - 2 ^ 31 ≤ v ∧ v ≤ 2 ^ 31 - 1 then some v else none
  else none

/-- The decimal writing of an integer: a minus sign for a negative number, then the
digits without leading zeros. -/
def decimal : Int → Str
  | .ofNat m => Nat.toDigits 10 m
  | .negSucc m => '-' :: Nat.toDigits 10 (m + 1)

/-- A double quote or a white-space character. -/
def isQuoteOrSpace (c : Char) : Bool := c = dquote || unicode.IsSpace c

/-- A string without its surrounding quotes and white space, in any mixture. -/
def stripQuotesAndSpace (s : Str) : Str :=
  (s.dropWhile isQuoteOrSpace).rdropWhile isQuoteOrSpace

/-- The text after the first colon of a string that has one, else the string. -/
def afterColon (s : Str) : Str :=
  if ':' ∈ s then (s.dropWhile (fun c => c ≠ ':')).drop 1 else s

/-- The text after the last colon of a string that has one, else the string. -/
def afterLastColon (s : Str) : Str :=
  (s.reverse.takeWhile (fun c => c ≠ ':')).reverse

/-- The effective port text of a port string as the specification words it: quotes
and white space stripped, then the part after the colon if there is one. -/
def effectivePortText (port : Str) : Str := afterColon (stripQuotesAndSpace port)

/-- The effective port text with the stripping done in two passes, the surrounding
quotes first and the surrounding white space of what is left second. -/
def effectivePortTextOrdered (port : Str) : Str :=
  afterColon (strings.TrimSpace (strings.Trim port [dquote]))

/-- A service descriptor with the given port strings and nothing else. -/
def serviceWithPorts (ports : List Str) : ServiceConfig :=
  { Image := [], Command := [], Entrypoint := [], Ports := ports, Environment := [],
    Labels := [], Volumes := none, Restart := [] }

/-! ## Notions used to state the properties of the environment mapper -/

/-- The text of a string before its first `=` (the whole string if it has none). -/
def beforeEq (e : Str) : Str := e.takeWhile (fun c => c ≠ '=')

/-- The text of a string after its first `=` (empty if it has none). -/
def afterEq (e : Str) : Str := (e.dropWhile (fun c => c ≠ '=')).drop 1

/-- The sentinel marker: a carriage return followed by `YMLMARSHALBUG`. -/
def sentinelMarker : Str := Char.ofNat 13 :: "YMLMARSHALBUG".data

/-- A value without the sentinel marker in front of it, if it has one. -/
def removeSentinelValue (v : Str) : Str :=
  if sentinelMarker.isPrefixOf v then v.drop sentinelMarker.length else v

/-- The same entry with the sentinel marker removed from its value. -/
def EnvVar.removeSentinel (v : EnvVar) : EnvVar := { Name := v.Name, Value := removeSentinelValue v.Value }

/-- A service descriptor with the given environment strings and nothing else. -/
def serviceWithEnvironment (environment : List Str) : ServiceConfig :=
  { Image := [], Command := [], Entrypoint := [], Ports := [], Environment := environment,
    Labels := [], Volumes := none, Restart := [] }

/-- A configuration with the given output format and namespace; the scale and the
health check of every service are fixed. -/
def envWith (asJSON : Bool) (ns : Str) : Env :=
  { asJSON := asJSON, outputDir := "output".data, calculateNamespace := ns,
    configureScale := fun _ => .ok 1, configureHealthCheck := fun _ => .ok none }

/-! ## Notions used to state the properties of the label mapper -/

/-- A service descriptor with the given label entries (in iteration order) and nothing
else. -/
def serviceWithLabels (labels : List (Str × Str)) : ServiceConfig :=
  { Image := [], Command := [], Entrypoint := [], Ports := [], Environment := [],
    Labels := labels, Volumes := none, Restart := [] }

/-! ## processDockerCompose.go: the text written in the display format -/

/-- The text the display-format branch of `writeFile` replaces by nothing: the sentinel
as the encoder writes it, a backslash and `r` for the carriage return. -/
def escapedSentinel : Str := backslash :: "rYMLMARSHALBUG".data

/-- The text fix-up of `writeFile` in the display format (the two `strings.Replace`
calls): every escaped sentinel is deleted, then every `ExternalName:` is commented
out. -/
def fixDisplayText (data : Str) : Str :=
  let fixedData := strings.Replace data escapedSentinel "".data
  strings.Replace fixedData "ExternalName:".data "# ExternalName:".data

/-- Modelled from the spec: the escape the display-format encoder (`yaml.Marshal`, a
package that is not among the source files) writes for one character of a
double-quoted value. The carriage return is written backslash-`r` (the text `writeFile`
deletes), a double quote and a backslash are written with a backslash in front; every
other character is written as it is. -/
def yamlEscapeChar (c : Char) : Str :=
  if c = Char.ofNat 13 then [backslash, 'r']
  else if c = dquote then [backslash, dquote]
  else if c = backslash then [backslash, backslash]
  else [c]

/-- Modelled from the spec: the escaped text of a value of the display-format encoder
(`yaml.Marshal`, not among the source files), character by character. -/
def yamlEscape (v : Str) : Str := (v.map yamlEscapeChar).flatten

/-- Modelled from the spec: a value of the display-format encoder (`yaml.Marshal`, not
among the source files) written between double quotes. -/
def yamlDoubleQuoted (v : Str) : Str := dquote :: yamlEscape v ++ [dquote]

/-- Modelled from the spec: the text the display-format encoder (`yaml.Marshal`, not
among the source files) writes for one string value. By default it omits the quotes
around a string; a value that holds a carriage return, as every value that carries the
sentinel does, cannot be written bare and is written between double quotes. -/
def yamlScalar (v : Str) : Str :=
  if Char.ofNat 13 ∈ v then yamlDoubleQuoted v else v

/-- The text written for one environment value in the display format: the encoder's
text for the value, after the fix-up of `writeFile` (which the program applies to the
whole document that contains this text). -/
def displayValueText (v : Str) : Str := fixDisplayText (yamlScalar v)

/-! ## Notions used to state the properties of the affinity and volume mappers -/

/-- The label key that `configureAffinity` looks for. -/
def hostLabelKey : Str := "io.rancher.scheduler.affinity:host_label".data

/-- The colon-delimited string with the given parts. -/
def joinColon (parts : List Str) : Str := ":".data.intercalate parts

/-- The text of a string before its first colon (the whole string if it has none). -/
def beforeColon (s : Str) : Str := s.takeWhile (fun c => c ≠ ':')

/-- A string with every `/` removed. -/
def removeSlashes (s : Str) : Str := s.filter (fun c => c ≠ '/')

/-- The mode options `ro` and `rw`. -/
def isModeFlag (opt : Str) : Bool := opt = "ro".data || opt = "rw".data

/-- A service descriptor with the given volume specs and nothing else. -/
def serviceWithVolumes (volumes : List Str) : ServiceConfig :=
  { Image := [], Command := [], Entrypoint := [], Ports := [], Environment := [],
    Labels := [], Volumes := some volumes, Restart := [] }

/-- The mount that a volume spec with a colon stands for: the name is the host path
without its slashes, the mount path is the second part, and the mode is read off the
parts after the second. -/
def mountOfSpec (spec : Str) : VolumeMount :=
  { Name := removeSlashes (beforeColon spec)
    ReadOnly := readOnlyLoop ((strings.Split spec ":".data).drop 2) false
    MountPath := beforeColon (afterColon spec) }

/-- The host-path volume that a volume spec with a colon stands for. -/
def volumeOfSpec (spec : Str) : Volume :=
  { Name := removeSlashes (beforeColon spec)
    VolumeSource := { HostPath := some { Path := beforeColon spec } } }

/-! ## processDockerCompose.go: the run over the services -/

/-- What a run leaves behind: the files written, as pairs of a path and the contents,
and the lines printed on the standard output, both in order. -/
structure World where
  files : List (Str × Str)
  stdout : List Str
  deriving DecidableEq, Repr

/-- The parsed project, as far as `processDockerCompose` uses it:
`ServiceConfigs.Keys()` and `ServiceConfigs.Get(name)`. -/
structure Project where
  Keys : List Str
  Get : Str → Option ServiceConfig

/-- The `object interface{}` handed to `writeFile`: the controller, or the companion
object built by `createService` (of a type `S` that is not looked into). -/
inductive Object (S : Type) where
  | controller (rc : ReplicationController)
  | companion (srv : S)

/-- Everything a run takes from outside the two source files. `R` is the state of the
`rancherCompose` map and `S` the type of the companion object. The package-level
configuration: `asJSON`, `outputDir`, the value of `calculateNamespace()`. Functions of
the repository in other files: `configureScale`, `configureHealthCheck`,
`cleanServices` (which may change the map), `createService`; each may end fatally.
Library functions: `json.MarshalIndent`; `json.Unmarshal` followed by `yaml.Marshal`,
from the JSON text to the display text; `filepath.Join` of two elements; and
`ioutil.WriteFile`, given by the error it returns, if any, for a path and contents. -/
structure Externals (R S : Type) where
  asJSON : Bool
  outputDir : Str
  calculateNamespace : Str
  configureScale : Str → R → Fatal Int
  configureHealthCheck : Str → R → Fatal Probe
  cleanServices : Str → R → Fatal R
  createService : Str → ServiceConfig → ReplicationController → Fatal S
  jsonMarshalIndent : Object S → Except Str Str
  yamlMarshal : Str → Except Str Str
  filepathJoin : Str → Str → Str
  ioutilWriteFile : Str → Str → Option Str

/-- The configuration seen by `createReplicationController` while the `rancherCompose`
map is in the given state. -/
def Externals.env {R S : Type} (x : Externals R S) (rancherCompose : R) : Env :=
  { asJSON := x.asJSON
    outputDir := x.outputDir
    calculateNamespace := x.calculateNamespace
    configureScale := fun name => x.configureScale name rancherCompose
    configureHealthCheck := fun name => x.configureHealthCheck name rancherCompose }

/-- Go `writeFile`: the world after the call, and the fatal diagnostic if the call ends
in `log.Fatalf`. A write that fails leaves no file in the world. -/
def writeFile {R S : Type} (x : Externals R S) (shortName sufix : Str) (object : Object S)
    (w : World) : World × Fatal Unit :=
  match x.jsonMarshalIndent object with
  | .error err =>
    (w, .error ("Failed to marshal file ".data ++ shortName ++ "-".data ++ sufix ++
      ": ".data ++ err))
  | .ok data =>
    if x.asJSON = true then
      let outputFileName := shortName ++ "-".data ++ sufix ++ ".json".data
      let outputFilePath := x.filepathJoin x.outputDir outputFileName
      match x.ioutilWriteFile outputFilePath data with
      | some err =>
        (w, .error ("Failed to wrtie file ".data ++ outputFileName ++ ": ".data ++ err))
      | none =>
        ({ files := w.files ++ [(outputFilePath, data)],
           stdout := w.stdout ++ [outputFilePath] }, .ok ())
    else
      match x.yamlMarshal data with
      | .error err =>
        (w, .error ("Failed to marshal file ".data ++ shortName ++ "-".data ++ sufix ++
          ": ".data ++ err))
      | .ok data =>
        let fixedData := fixDisplayText data
        let outputFileName := shortName ++ "-".data ++ sufix ++ ".yml".data
        let outputFilePath := x.filepathJoin x.outputDir outputFileName
        match x.ioutilWriteFile outputFilePath fixedData with
        | some err =>
          (w, .error ("Failed to write service ".data ++ outputFileName ++ ": ".data ++ err))
        | none =>
          ({ files := w.files ++ [(outputFilePath, fixedData)],
             stdout := w.stdout ++ [outputFilePath] }, .ok ())

/-- The short name computed in `processDockerCompose`: `name[0:24]` if
`len(name) > 24`, else `name`. -/
def shortNameOf (name : Str) : Str :=
  if name.length > 24 then name.take 24 else name

/-- The body of the loop of `processDockerCompose` for one service name: the world
after it and either the fatal diagnostic or the state of the `rancherCompose` map. -/
def processService {R S : Type} (x : Externals R S) (dockerCompose : Project) (name : Str)
    (rancherCompose : R) (w : World) : World × Fatal R :=
  match dockerCompose.Get name with
  | none => (w, .error ("Failed to get key ".data ++ name ++ " from config".data))
  | some service =>
    let shortName := shortNameOf name
    match createReplicationController (x.env rancherCompose) name shortName service with
    | .error e => (w, .error e)
    | .ok rc =>
      match x.cleanServices name rancherCompose with
      | .error e => (w, .error e)
      | .ok rancherCompose =>
        match writeFile x shortName "rc".data (.controller rc) w with
        | (w, .error e) => (w, .error e)
        | (w, .ok _) =>
          match x.createService shortName service rc with
          | .error e => (w, .error e)
          | .ok srv =>
            match writeFile x shortName "srv".data (.companion srv) w with
            | (w, .error e) => (w, .error e)
            | (w, .ok _) => (w, .ok rancherCompose)

/-- The `for _, name := range dockerCompose.ServiceConfigs.Keys()` loop. -/
def processDockerComposeLoop {R S : Type} (x : Externals R S) (dockerCompose : Project) :
    List Str → R → World → World × Fatal R
  | [], rancherCompose, w => (w, .ok rancherCompose)
  | name :: rest, rancherCompose, w =>
    match processService x dockerCompose name rancherCompose w with
    | (w, .error e) => (w, .error e)
    | (w, .ok rancherCompose) => processDockerComposeLoop x dockerCompose rest rancherCompose w

/-- Go `processDockerCompose`. -/
def processDockerCompose {R S : Type} (x : Externals R S) (dockerCompose : Project)
    (rancherCompose : R) (w : World) : World × Fatal R :=
  processDockerComposeLoop x dockerCompose dockerCompose.Keys rancherCompose w

/-! ## Notions used to state the properties of a run -/

/-- The file extension of the selected output format. -/
def fileExtension {R S : Type} (x : Externals R S) : Str :=
  if x.asJSON = true then "json".data else "yml".data

/-- The two file paths of a service, the controller file first. -/
def servicePaths {R S : Type} (x : Externals R S) (name : Str) : List Str :=
  [x.filepathJoin x.outputDir (shortNameOf name ++ "-rc.".data ++ fileExtension x),
   x.filepathJoin x.outputDir (shortNameOf name ++ "-srv.".data ++ fileExtension x)]

/-- The empty world, before anything is written or printed. -/
def World.empty : World := { files := [], stdout := [] }

/-- A project with the given services, in the order of `Keys()`. -/
def projectOf (services : List (Str × ServiceConfig)) : Project :=
  { Keys := services.map Prod.fst, Get := fun name => List.lookup name services }

/-- Externals for examples: no `rancherCompose` state, a companion object without
content, encoders that write a fixed text, `filepath.Join` as the two elements with a
slash between them, and file writes that fail exactly on the listed paths. -/
def externalsWith (asJSON : Bool) (failingPaths : List Str) : Externals Unit Unit :=
  { asJSON := asJSON
    outputDir := "output".data
    calculateNamespace := "default".data
    configureScale := fun _ _ => .ok 1
    configureHealthCheck := fun _ _ => .ok none
    cleanServices := fun _ _ => .ok ()
    createService := fun _ _ _ => .ok ()
    jsonMarshalIndent := fun _ => .ok "{}".data
    yamlMarshal := fun _ => .ok "{}".data
    filepathJoin := fun dir file => dir ++ "/".data ++ file
    ioutilWriteFile := fun path _ =>
      if path ∈ failingPaths then some "permission denied".data else none }

/-- The text that `writeFile` comments out. -/
def externalNameText : Str := "ExternalName:".data

/-- The text that `writeFile` puts in its place. -/
def externalNameComment : Str := "# ExternalName:".data

/-! ## Characters and bytes of a service name, files on disk -/

/-- The bytes of the UTF-8 encoding of one code point, each byte written as the
character with that code. -/
def utf8EncodeChar (c : Char) : Str :=
  let n := c.toNat
  if n < 0x80 then [Char.ofNat n]
  else if n < 0x800 then [Char.ofNat (0xC0 + n / 0x40), Char.ofNat (0x80 + n % 0x40)]
  else if n < 0x10000 then
    [Char.ofNat (0xE0 + n / 0x1000), Char.ofNat (0x80 + n / 0x40 % 0x40),
     Char.ofNat (0x80 + n % 0x40)]
  else
    [Char.ofNat (0xF0 + n / 0x40000), Char.ofNat (0x80 + n / 0x1000 % 0x40),
     Char.ofNat (0x80 + n / 0x40 % 0x40), Char.ofNat (0x80 + n % 0x40)]

/-- The bytes of a string of characters, as Go stores the string and as `len` and the
slice expression count it. -/
def utf8Bytes (s : Str) : Str := (s.map utf8EncodeChar).flatten

/-- The contents of the file at a path after the writes of a world: those of the last
write to that path (`ioutil.WriteFile` creates the file or replaces its contents). -/
def World.contents (w : World) (path : Str) : Option Str :=
  List.lookup path w.files.reverse

/-- Externals for examples in which the text of a controller is the image of its
container (and the text of a companion object is `srv`), so that files written for
different services differ; otherwise as `externalsWith` with no failing write. -/
def externalsByImage (asJSON : Bool) : Externals Unit Unit :=
  { externalsWith asJSON [] with
    jsonMarshalIndent := fun object =>
      match object with
      | .controller rc => .ok ((rc.Spec.Template.Spec.Containers.map (fun c => c.Image)).flatten)
      | .companion _ => .ok "srv".data }

/-! # Theorems -/

/-! ## Lemmas on the string functions -/

theorem strings.index_nonneg_iff (s substr : Str) :
    0 ≤ strings.Index s substr ↔ substr <:+: s := by
  induction s with
  | nil =>
    by_cases h : substr = [] <;> simp [strings.Index, h]
  | cons c t ih =>
    rw [strings.Index, List.infix_cons_iff]
    by_cases hp : substr.isPrefixOf (c :: t) = true
    · simp only [hp, if_true]
      have := List.isPrefixOf_iff_prefix.mp hp
      simp [this]
    · simp only [hp]
      have hnp : ¬ substr <+: c :: t := fun h => hp (List.isPrefixOf_iff_prefix.mpr h)
      by_cases hi : strings.Index t substr < 0
      · have : ¬ substr <:+: t := fun h => by have := ih.mpr h; omega
        simp [hi, hnp, this]
      · have h0 : 0 ≤ strings.Index t substr := by omega
        have : substr <:+: t := ih.mp h0
        simp [hi, hnp, this]
        omega

theorem strings.contains_iff (s substr : Str) :
    strings.Contains s substr = true ↔ substr <:+: s := by
  simp [strings.Contains, strings.index_nonneg_iff]

theorem strings.contains_singleton_iff (s : Str) (c : Char) :
    strings.Contains s [c] = true ↔ c ∈ s := by
  rw [strings.contains_iff]
  constructor
  · rintro ⟨a, b, h⟩
    rw [← h]; simp
  · intro h
    obtain ⟨a, b, h⟩ := List.append_of_mem h
    exact ⟨a, b, by simp [h]⟩

theorem strings.splitLoop_singleton_of_not_mem (c : Char) (s : Str) (h : c ∉ s) :
    strings.splitLoop [c] s 0 = [s] := by
  induction s with
  | nil => rfl
  | cons x t ih =>
    have hx : c ≠ x := fun e => h (by simp [e])
    have ht : c ∉ t := fun e => h (by simp [e])
    simp [strings.splitLoop, hx, ih ht, strings.consHead]

theorem strings.splitLoop_singleton_append (c : Char) (a b : Str) (h : c ∉ a) :
    strings.splitLoop [c] (a ++ c :: b) 0 = a :: strings.splitLoop [c] b 0 := by
  induction a with
  | nil => simp [strings.splitLoop]
  | cons x t ih =>
    have hx : c ≠ x := fun e => h (by simp [e])
    have ht : c ∉ t := fun e => h (by simp [e])
    simp [strings.splitLoop, hx, ih ht, strings.consHead]

theorem strings.split_singleton_of_not_mem (c : Char) (s : Str) (h : c ∉ s) :
    strings.Split s [c] = [s] := by
  simp [strings.Split, strings.splitLoop_singleton_of_not_mem c s h]

theorem strings.split_singleton_append (c : Char) (a b : Str) (h : c ∉ a) :
    strings.Split (a ++ c :: b) [c] = a :: strings.Split b [c] := by
  simp [strings.Split, strings.splitLoop_singleton_append c a b h]

/-- Every string decomposes at the first occurrence of a character it contains. -/
theorem Str.split_at_first (c : Char) (s : Str) (h : c ∈ s) :
    ∃ a b, s = a ++ c :: b ∧ c ∉ a := by
  induction s with
  | nil => simp at h
  | cons x t ih =>
    by_cases hx : x = c
    · exact ⟨[], t, by simp [hx], by simp⟩
    · have ht : c ∈ t := by
        rcases List.mem_cons.mp h with e | e
        · exact absurd e.symm hx
        · exact e
      obtain ⟨a, b, hab, hna⟩ := ih ht
      refine ⟨x :: a, b, by simp [hab], ?_⟩
      simp only [List.mem_cons, not_or]
      exact ⟨fun e => hx e.symm, hna⟩

/-! ## Lemmas on `strconv.ParseInt` -/

theorem strconv.digitVal_of_digit (c : Char) (h : isDecimalDigit c = true) :
    strconv.digitVal c = some (c.toNat - 48) ∧ c.toNat - 48 < 10 := by
  simp only [isDecimalDigit, decide_eq_true_eq] at h
  simp only [strconv.digitVal, h, and_self, if_true, true_and]
  omega

theorem strconv.digitVal_of_not_digit (c : Char) (h : isDecimalDigit c = false) :
    strconv.digitVal c = none ∨ ∃ d, strconv.digitVal c = some d ∧ 10 ≤ d := by
  simp only [isDecimalDigit, decide_eq_false_iff_not] at h
  simp only [strconv.digitVal, h, if_false]
  split
  · right; exact ⟨_, rfl, by omega⟩
  · left; rfl

theorem digitsValueFrom_cons (n : Nat) (c : Char) (t : Str) :
    digitsValueFrom n (c :: t) = digitsValueFrom (10 * n + (c.toNat - 48)) t := rfl

theorem le_digitsValueFrom (s : Str) : ∀ n : Nat, n ≤ digitsValueFrom n s := by
  induction s with
  | nil => intro n; exact Nat.le_refl _
  | cons c t ih =>
    intro n
    rw [digitsValueFrom_cons]
    have := ih (10 * n + (c.toNat - 48))
    omega

theorem strconv.parseUintLoop_ok_iff (s : Str) :
    ∀ (n v : Nat), n ≤ 4294967295 →
      (strconv.parseUintLoop 10 (2 ^ 32 - 1) s n = .ok v ↔
        (s.all isDecimalDigit = true ∧ digitsValueFrom n s = v ∧ v ≤ 4294967295)) := by
  induction s with
  | nil =>
    intro n v hn
    simp only [strconv.parseUintLoop, List.all_nil, digitsValueFrom, List.foldl_nil, true_and]
    constructor
    · intro h
      have : n = v := by injection h
      omega
    · rintro ⟨h, _⟩
      rw [h]
  | cons c t ih =>
    intro n v hn
    rw [strconv.parseUintLoop, digitsValueFrom_cons, List.all_cons]
    by_cases hc : isDecimalDigit c = true
    · obtain ⟨hd, hlt⟩ := strconv.digitVal_of_digit c hc
      have hcut : ¬ (n ≥ strconv.maxUint64 / 10 + 1) := by
        have : strconv.maxUint64 / 10 + 1 = 1844674407370955162 := by decide
        omega
      have h1 : n * 10 % 2 ^ 64 = n * 10 := by
        apply Nat.mod_eq_of_lt
        have : (2 : Nat) ^ 64 = 18446744073709551616 := by norm_num
        omega
      have h2 : (n * 10 + (c.toNat - 48)) % 2 ^ 64 = n * 10 + (c.toNat - 48) := by
        apply Nat.mod_eq_of_lt
        have : (2 : Nat) ^ 64 = 18446744073709551616 := by norm_num
        omega
      have h3 : (2 : Nat) ^ 32 - 1 = 4294967295 := by norm_num
      simp only [hd, hc, Bool.true_and]
      rw [if_neg (by omega), if_neg hcut]
      simp only [h1, h2]
      by_cases hbig : n * 10 + (c.toNat - 48) > 4294967295
      · rw [if_pos (Or.inr (by omega))]
        have := le_digitsValueFrom t (10 * n + (c.toNat - 48))
        constructor
        · intro h; cases h
        · rintro ⟨_, h, h'⟩; omega
      · rw [if_neg (by omega)]
        have e : n * 10 + (c.toNat - 48) = 10 * n + (c.toNat - 48) := by omega
        rw [e]
        exact ih _ v (by omega)
    · have hc' : isDecimalDigit c = false := by simpa using hc
      simp only [hc', Bool.false_and, Bool.false_eq_true, false_and, iff_false]
      rcases strconv.digitVal_of_not_digit c hc' with h | ⟨d, h, hd⟩
      · simp [h]
      · simp only [h]
        rw [if_pos hd]
        intro h; cases h

theorem strconv.parseUint_ok_iff (s : Str) (v : Nat) :
    strconv.ParseUint s 32 = .ok v ↔
      (s ≠ [] ∧ s.all isDecimalDigit = true ∧ digitsValue s = v ∧ v ≤ 4294967295) := by
  unfold strconv.ParseUint
  by_cases hs : s = []
  · simp [hs]
  · rw [if_neg hs]
    simp only [ne_eq, hs, not_false_eq_true, true_and]
    exact strconv.parseUintLoop_ok_iff s 0 v (by omega)

theorem strconv.parseInt_ok_iff (t : Str) (v : Int) :
    strconv.ParseInt t 32 = .ok v ↔ int32TextValue t = some v := by
  cases t with
  | nil => simp [strconv.ParseInt, int32TextValue]
  | cons c t =>
    have hpow : (2 : Nat) ^ (32 - 1) = 2147483648 := by norm_num
    have hpowi : (2 : Int) ^ 31 = 2147483648 := by norm_num
    simp only [strconv.ParseInt, int32TextValue, List.head?_cons, List.tail_cons,
      Option.some.injEq, hpow, hpowi]
    have hds : (if c = '-' ∨ c = '+' then t else c :: t) = (if c = '+' ∨ c = '-' then t else c :: t) := by
      by_cases h1 : c = '-' <;> by_cases h2 : c = '+' <;> simp [h1, h2]
    rw [hds]
    generalize (if c = '+' ∨ c = '-' then t else c :: t) = ds
    rcases hp : strconv.ParseUint ds 32 with e | un
    · have hno : ¬ (ds ≠ [] ∧ ds.all isDecimalDigit = true ∧ digitsValue ds ≤ 4294967295) := by
        rintro ⟨a, b, c'⟩
        have := (strconv.parseUint_ok_iff ds (digitsValue ds)).mpr ⟨a, b, rfl, c'⟩
        rw [hp] at this
        cases this
      have hl : (match (Except.error e : Except strconv.NumError Nat) with
          | .error .ErrSyntax => (Except.error .ErrSyntax : Except strconv.NumError Int)
          | .error .ErrRange => .error .ErrRange
          | .ok un =>
            if ¬ (decide (c = '-')) = true ∧ un ≥ 2147483648 then .error .ErrRange
            else if (decide (c = '-')) = true ∧ un > 2147483648 then .error .ErrRange
            else .ok (if (decide (c = '-')) = true then - (un : Int) else (un : Int))) ≠ .ok v := by
        cases e <;> simp
      constructor
      · intro h; exact absurd h hl
      · intro h
        exfalso
        by_cases hd : ds ≠ [] ∧ ds.all isDecimalDigit = true
        · rw [if_pos hd] at h
          have hbig : ¬ digitsValue ds ≤ 4294967295 := fun hle => hno ⟨hd.1, hd.2, hle⟩
          by_cases hneg : c = '-'
          · simp only [hneg, if_true] at h
            split at h
            · omega
            · cases h
          · simp only [hneg, if_false] at h
            split at h
            · omega
            · cases h
        · rw [if_neg hd] at h
          cases h
    · obtain ⟨h1, h2, h3, h4⟩ := (strconv.parseUint_ok_iff ds un).mp hp
      rw [if_pos ⟨h1, h2⟩, h3]
      by_cases hneg : c = '-'
      · simp only [hneg, decide_True, not_true_eq_false, false_and, if_false, true_and, if_true]
        by_cases hbig : un > 2147483648
        · rw [if_pos hbig, if_neg (by omega)]
          simp
        · rw [if_neg hbig, if_pos (by omega)]
          simp
      · simp only [hneg, decide_False, Bool.false_eq_true, not_false_eq_true, true_and, false_and,
          if_false]
        by_cases hbig : un ≥ 2147483648
        · rw [if_pos hbig, if_neg (by omega)]
          simp
        · rw [if_neg hbig, if_pos (by omega)]
          simp

theorem strconv.parseInt_error_iff (t : Str) :
    (∃ e, strconv.ParseInt t 32 = .error e) ↔ int32TextValue t = none := by
  constructor
  · rintro ⟨e, he⟩
    cases hv : int32TextValue t with
    | none => rfl
    | some v =>
      have := (strconv.parseInt_ok_iff t v).mpr hv
      rw [he] at this
      cases this
  · intro h
    rcases hp : strconv.ParseInt t 32 with e | v
    · exact ⟨e, rfl⟩
    · have := (strconv.parseInt_ok_iff t v).mp hp
      rw [h] at this
      cases this

theorem int32TextValue_range (t : Str) (v : Int) (h : int32TextValue t = some v) :
    - 2147483648 ≤ v ∧ v ≤ 2147483647 := by
  have hpowi : (2 : Int) ^ 31 = 2147483648 := by norm_num
  simp only [int32TextValue, hpowi] at h
  split_ifs at h <;> simp only [Option.some.injEq] at h <;> omega

theorem int32_of_range (v : Int) (h : - 2147483648 ≤ v ∧ v ≤ 2147483647) : int32 v = v := by
  have hpowi : (2 : Int) ^ 31 = 2147483648 := by norm_num
  have hpowj : (2 : Int) ^ 32 = 4294967296 := by norm_num
  simp only [int32, hpowi, hpowj]
  omega

/-! ## The decimal writing of an integer is read back by `int32TextValue` -/

theorem digitChar_spec (k : Nat) (hk : k < 10) :
    (Nat.digitChar k).toNat - 48 = k ∧ isDecimalDigit (Nat.digitChar k) = true := by
  interval_cases k <;> decide

theorem toDigitsCore_spec (fuel : Nat) :
    ∀ (n : Nat) (ds : Str), n < fuel →
      digitsValueFrom 0 (Nat.toDigitsCore 10 fuel n ds) = digitsValueFrom n ds ∧
      (Nat.toDigitsCore 10 fuel n ds).all isDecimalDigit = ds.all isDecimalDigit ∧
      Nat.toDigitsCore 10 fuel n ds ≠ [] := by
  induction fuel with
  | zero => intro n ds h; omega
  | succ fuel ih =>
    intro n ds h
    obtain ⟨hv, hd⟩ := digitChar_spec (n % 10) (Nat.mod_lt _ (by omega))
    rw [Nat.toDigitsCore]
    by_cases h0 : n / 10 = 0
    · simp only [h0, if_true]
      refine ⟨?_, ?_, by simp⟩
      · rw [digitsValueFrom_cons, hv]
        congr 1
        omega
      · rw [List.all_cons, hd, Bool.true_and]
    · simp only [h0, if_false]
      obtain ⟨a, b, c⟩ := ih (n / 10) (Nat.digitChar (n % 10) :: ds) (by omega)
      refine ⟨?_, ?_, c⟩
      · rw [a, digitsValueFrom_cons, hv]
        congr 1
        omega
      · rw [b, List.all_cons, hd, Bool.true_and]

theorem toDigits_spec (m : Nat) :
    digitsValue (Nat.toDigits 10 m) = m ∧
    (Nat.toDigits 10 m).all isDecimalDigit = true ∧
    Nat.toDigits 10 m ≠ [] := by
  obtain ⟨a, b, c⟩ := toDigitsCore_spec (m + 1) m [] (by omega)
  exact ⟨a, by simpa using b, c⟩

/-- The decimal writing of an integer: non-empty, a digit at the end, and every
character a digit or the minus sign. -/
theorem decimal_chars (n : Int) :
    decimal n ≠ [] ∧ ∀ c ∈ decimal n, isDecimalDigit c = true ∨ c = '-' := by
  cases n with
  | ofNat m =>
    obtain ⟨_, b, c⟩ := toDigits_spec m
    refine ⟨c, fun x hx => Or.inl ?_⟩
    exact List.all_eq_true.mp b x hx
  | negSucc m =>
    obtain ⟨_, b, _⟩ := toDigits_spec (m + 1)
    refine ⟨by simp [decimal], fun x hx => ?_⟩
    simp only [decimal, List.mem_cons] at hx
    rcases hx with e | e
    · exact Or.inr e
    · exact Or.inl (List.all_eq_true.mp b x e)

theorem int32TextValue_decimal (n : Int) (hn : - 2 ^ 31 ≤ n ∧ n ≤ 2 ^ 31 - 1) :
    int32TextValue (decimal n) = some n := by
  have hpowi : (2 : Int) ^ 31 = 2147483648 := by norm_num
  rw [hpowi] at hn
  cases n with
  | ofNat m =>
    obtain ⟨a, b, c⟩ := toDigits_spec m
    have hh : ∀ x, isDecimalDigit x = false → (Nat.toDigits 10 m).head? ≠ some x := by
      intro x hx he
      have := List.all_eq_true.mp b x (List.mem_of_mem_head? he)
      rw [hx] at this
      cases this
    have h1 := hh '-' (by decide)
    have h2 := hh '+' (by decide)
    simp only [int32TextValue, decimal, h1, h2, or_self, if_false, c, ne_eq, not_false_eq_true,
      b, and_self, if_true, a, hpowi]
    rw [if_pos]
    · rfl
    · simp only [Int.ofNat_eq_coe] at hn
      omega
  | negSucc m =>
    obtain ⟨a, b, c⟩ := toDigits_spec (m + 1)
    simp only [int32TextValue, decimal, List.head?_cons, true_or, if_true, List.tail_cons, c,
      ne_eq, not_false_eq_true, b, and_self, a, hpowi]
    rw [if_pos]
    · simp only [Option.some.injEq]
      rw [Int.negSucc_eq]
      push_cast
      rfl
    · have := Int.negSucc_eq m
      push_cast
      omega

/-! ## Lemmas on trimming -/

theorem dropWhile_keep (p : Char → Bool) (d r : Str) (hd : d ≠ [])
    (hp : ∀ c ∈ d, p c = false) : (d ++ r).dropWhile p = d ++ r := by
  cases d with
  | nil => exact absurd rfl hd
  | cons x t =>
    have := hp x (by simp)
    simp [List.dropWhile_cons, this]

theorem rdropWhile_keep (p : Char → Bool) (l d : Str) (hd : d ≠ [])
    (hp : ∀ c ∈ d, p c = false) : (l ++ d).rdropWhile p = l ++ d := by
  rw [List.rdropWhile_eq_self_iff]
  intro hl
  rw [List.getLast_append_of_ne_nil hd]
  have := hp _ (List.getLast_mem hd)
  simp [this]

theorem dropWhile_all (p : Char → Bool) (a r : Str) (ha : ∀ c ∈ a, p c = true) :
    (a ++ r).dropWhile p = r.dropWhile p :=
  List.dropWhile_append_of_pos ha

theorem rdropWhile_all (p : Char → Bool) (l b : Str) (hb : ∀ c ∈ b, p c = true) :
    (l ++ b).rdropWhile p = l.rdropWhile p := by
  unfold List.rdropWhile
  rw [List.reverse_append]
  rw [List.dropWhile_append_of_pos]
  intro c hc
  exact hb c (List.mem_reverse.mp hc)

theorem dropWhile_append_stop (p : Char → Bool) (a r : Str) (x : Char) (hx : p x = false) :
    (a ++ x :: r).dropWhile p = a.dropWhile p ++ x :: r := by
  induction a with
  | nil => simp [List.dropWhile_cons, hx]
  | cons y t ih =>
    by_cases hy : p y = true
    · simp [List.dropWhile_cons, hy, ih]
    · simp [List.dropWhile_cons, hy]

/-- A digit or a minus sign is neither a double quote nor white space nor a colon. -/
theorem digit_or_minus_plain (c : Char) (h : isDecimalDigit c = true ∨ c = '-') :
    [dquote].contains c = false ∧ unicode.IsSpace c = false ∧ c ≠ ':' := by
  rcases h with h | h
  · simp only [isDecimalDigit, decide_eq_true_eq] at h
    refine ⟨?_, ?_, ?_⟩
    · simp only [List.contains, List.elem, dquote]
      have : (c == Char.ofNat 34) = false := by
        rw [beq_eq_false_iff_ne]
        intro e; rw [e] at h; revert h; decide
      simp [this]
    · simp only [unicode.IsSpace]
      have h1 : c.toNat ≤ 255 := by omega
      simp only [h1, if_true]
      simp only [Bool.or_eq_false_iff, decide_eq_false_iff_not]
      omega
    · intro e; rw [e] at h; revert h; decide
  · rw [h]; decide

theorem space_not_quote (c : Char) (h : unicode.IsSpace c = true) : [dquote].contains c = false := by
  by_cases e : c = dquote
  · exfalso
    have hq : unicode.IsSpace dquote = false := by decide
    rw [e, hq] at h
    cases h
  · have : (c == dquote) = false := beq_eq_false_iff_ne.mpr e
    simp [List.contains, List.elem, this]

/-! ## The port mapper -/

theorem afterColon_append (a b : Str) (ha : ':' ∉ a) : afterColon (a ++ ':' :: b) = b := by
  have hall : ∀ c ∈ a, (fun c => decide (c ≠ ':')) c = true := by
    intro c hc
    have : c ≠ ':' := fun e => ha (e ▸ hc)
    simpa using this
  unfold afterColon
  rw [if_pos (by simp)]
  rw [List.dropWhile_append_of_pos hall]
  simp [List.dropWhile_cons]

theorem afterColon_of_not_mem (s : Str) (h : ':' ∉ s) : afterColon s = s := by
  simp [afterColon, h]

/-- With at most one colon, the text the code parses (`parts[1]` of the split, or the
whole string) is the text after the colon. -/
theorem portText_eq (s : Str) (h1 : s.count ':' ≤ 1) :
    (if strings.Contains s ":".data = true then
        (match strings.Split s ":".data with
          | _ :: p :: _ => (Except.ok p : Fatal Str)
          | _ => .error "panic: runtime error: index out of range".data)
      else .ok s) = .ok (afterColon s) := by
  have hc : ":".data = [':'] := rfl
  rw [hc]
  by_cases hm : ':' ∈ s
  · rw [if_pos ((strings.contains_singleton_iff s ':').mpr hm)]
    obtain ⟨a, b, hab, hna⟩ := Str.split_at_first ':' s hm
    have hnb : ':' ∉ b := by
      intro hb
      have h2 : 0 < b.count ':' := List.count_pos_iff.mpr hb
      rw [hab, List.count_append, List.count_cons_self] at h1
      omega
    rw [hab, strings.split_singleton_append ':' a b hna,
      strings.split_singleton_of_not_mem ':' b hnb, afterColon_append a b hna]
  · have : ¬ strings.Contains s [':'] = true := fun h =>
      hm ((strings.contains_singleton_iff s ':').mp h)
    rw [if_neg this, afterColon_of_not_mem s hm]

theorem configurePort_ok_iff (name p : Str) (q : ContainerPort)
    (h1 : (strings.TrimSpace (strings.Trim p [dquote])).count ':' ≤ 1) :
    configurePort name p = .ok q ↔
      int32TextValue (effectivePortTextOrdered p) = some q.ContainerPort := by
  unfold configurePort effectivePortTextOrdered
  simp only []
  rw [portText_eq _ h1]
  simp only []
  generalize afterColon (strings.TrimSpace (strings.Trim p [dquote])) = t
  rcases hp : strconv.ParseInt t 32 with e | v
  · simp only []
    have hnone := (strconv.parseInt_error_iff t).mp ⟨e, hp⟩
    rw [hnone]
    constructor <;> intro h <;> cases h
  · simp only []
    have hv := (strconv.parseInt_ok_iff t v).mp hp
    rw [hv, int32_of_range v (int32TextValue_range t v hv)]
    constructor
    · intro h
      have : ({ ContainerPort := v } : ContainerPort) = q := by injection h
      rw [← this]
    · intro h
      have : v = q.ContainerPort := by injection h
      rw [this]

theorem configurePort_total (name p : Str) :
    (∃ q, configurePort name p = .ok q) ∨ (∃ msg, configurePort name p = .error msg) := by
  rcases h : configurePort name p with e | q
  · exact Or.inr ⟨e, rfl⟩
  · exact Or.inl ⟨q, rfl⟩

theorem configurePortsLoop_ok_iff (name : Str) (ports : List Str) :
    ∀ (acc out : List ContainerPort),
      configurePortsLoop name ports acc = .ok out ↔
        ∃ res, out = acc ++ res ∧
          List.Forall₂ (fun p q => configurePort name p = .ok q) ports res := by
  induction ports with
  | nil =>
    intro acc out
    simp only [configurePortsLoop, List.forall₂_nil_left_iff]
    constructor
    · intro h
      have : acc = out := by injection h
      exact ⟨[], by simp [this], rfl⟩
    · rintro ⟨res, h, rfl⟩
      simp [h]
  | cons p rest ih =>
    intro acc out
    rw [configurePortsLoop]
    rcases hp : configurePort name p with e | q
    · simp only []
      constructor
      · intro h; cases h
      · rintro ⟨res, _, hf⟩
        cases hf with
        | cons h _ =>
          rw [hp] at h
          cases h
    · simp only []
      rw [ih]
      constructor
      · rintro ⟨res, h, hf⟩
        exact ⟨q :: res, by simp [h], List.Forall₂.cons hp hf⟩
      · rintro ⟨res, h, hf⟩
        cases hf with
        | cons hq hf =>
          rw [hp] at hq
          cases hq
          exact ⟨_, by simp [h], hf⟩

theorem configurePortsLoop_error_of_mem (name : Str) (ports : List Str) :
    ∀ (acc : List ContainerPort) (p : Str), p ∈ ports →
      (∃ msg, configurePort name p = .error msg) →
      ∃ msg, configurePortsLoop name ports acc = .error msg := by
  induction ports with
  | nil => intro acc p hp; simp at hp
  | cons x rest ih =>
    intro acc p hp hbad
    rw [configurePortsLoop]
    rcases hx : configurePort name x with e | q
    · exact ⟨e, rfl⟩
    · simp only []
      rcases List.mem_cons.mp hp with h | h
      · obtain ⟨msg, hmsg⟩ := hbad
        rw [h, hx] at hmsg
        cases hmsg
      · exact ih _ p h hbad

/-- Quotes outermost, white space inside them: both passes of the stripping succeed. -/
theorem strip_quotes_then_space (qa w1 d w2 qb : Str) (hd : d ≠ [])
    (hplain : ∀ c ∈ d, isDecimalDigit c = true ∨ c = '-')
    (hqa : ∀ c ∈ qa, c = dquote) (hqb : ∀ c ∈ qb, c = dquote)
    (hw1 : ∀ c ∈ w1, unicode.IsSpace c = true) (hw2 : ∀ c ∈ w2, unicode.IsSpace c = true) :
    strings.TrimSpace (strings.Trim (qa ++ (w1 ++ d ++ w2) ++ qb) [dquote]) = d := by
  have hq : ∀ (l : Str), (∀ c ∈ l, c = dquote) → ∀ c ∈ l, [dquote].contains c = true := by
    intro l hl c hc
    rw [hl c hc]; decide
  have hmid : ∀ c ∈ w1 ++ d ++ w2, [dquote].contains c = false := by
    intro c hc
    simp only [List.mem_append] at hc
    rcases hc with (hc | hc) | hc
    · exact space_not_quote c (hw1 c hc)
    · exact (digit_or_minus_plain c (hplain c hc)).1
    · exact space_not_quote c (hw2 c hc)
  have hmidne : w1 ++ d ++ w2 ≠ [] := by simp [hd]
  have hdsp : ∀ c ∈ d, unicode.IsSpace c = false := fun c hc =>
    (digit_or_minus_plain c (hplain c hc)).2.1
  unfold strings.Trim strings.TrimSpace
  rw [List.append_assoc, dropWhile_all _ qa _ (hq qa hqa),
    dropWhile_keep _ (w1 ++ d ++ w2) qb hmidne hmid,
    rdropWhile_all _ _ qb (hq qb hqb),
    show w1 ++ d ++ w2 = [] ++ (w1 ++ d ++ w2) from rfl,
    rdropWhile_keep _ [] (w1 ++ d ++ w2) hmidne hmid, List.nil_append,
    List.append_assoc, dropWhile_all _ w1 _ hw1, dropWhile_keep _ d w2 hd hdsp,
    rdropWhile_all _ d w2 hw2,
    show d = [] ++ d from rfl, rdropWhile_keep _ [] d hd hdsp]

/-- A host part in front of a colon: the stripping only shortens the host part. -/
theorem strip_host_colon (h d : Str) (hd : d ≠ [])
    (hplain : ∀ c ∈ d, isDecimalDigit c = true ∨ c = '-') :
    ∃ h2, h2 <:+ h ∧
      strings.TrimSpace (strings.Trim (h ++ ':' :: d) [dquote]) = h2 ++ ':' :: d := by
  have hdq : ∀ c ∈ d, [dquote].contains c = false := fun c hc =>
    (digit_or_minus_plain c (hplain c hc)).1
  have hdsp : ∀ c ∈ d, unicode.IsSpace c = false := fun c hc =>
    (digit_or_minus_plain c (hplain c hc)).2.1
  refine ⟨(h.dropWhile (fun c => [dquote].contains c)).dropWhile unicode.IsSpace,
    (List.dropWhile_suffix _).trans (List.dropWhile_suffix _), ?_⟩
  unfold strings.Trim strings.TrimSpace
  rw [dropWhile_append_stop _ h d ':' (by decide),
    show List.dropWhile (fun c => [dquote].contains c) h ++ ':' :: d
      = (List.dropWhile (fun c => [dquote].contains c) h ++ [':']) ++ d by simp,
    rdropWhile_keep _ _ d hd hdq,
    show (List.dropWhile (fun c => [dquote].contains c) h ++ [':']) ++ d
      = List.dropWhile (fun c => [dquote].contains c) h ++ ':' :: d by simp,
    dropWhile_append_stop _ _ d ':' (by decide),
    show List.dropWhile unicode.IsSpace (List.dropWhile (fun c => [dquote].contains c) h) ++ ':' :: d
      = (List.dropWhile unicode.IsSpace (List.dropWhile (fun c => [dquote].contains c) h) ++ [':']) ++ d
      by simp,
    rdropWhile_keep _ _ d hd hdsp]

theorem decimal_no_colon (n : Int) : ':' ∉ decimal n := by
  intro h
  exact (digit_or_minus_plain ':' ((decimal_chars n).2 ':' h)).2.2 rfl

theorem configurePortsLoop_of_forall (name : Str) (n : Int) (ports : List Str)
    (h : ∀ p ∈ ports, configurePort name p = .ok { ContainerPort := n }) :
    configurePortsLoop name ports [] = .ok (ports.map (fun _ => { ContainerPort := n })) := by
  rw [configurePortsLoop_ok_iff]
  refine ⟨ports.map (fun _ => { ContainerPort := n }), rfl, ?_⟩
  induction ports with
  | nil => exact List.Forall₂.nil
  | cons p rest ih =>
    exact List.Forall₂.cons (h p (by simp)) (ih (fun x hx => h x (by simp [hx])))

/-! ## Restart policy, ports: the properties -/

/-- C1: `configureRestartPolicy` maps the restart string `""` or `"always"` to
`RestartPolicyAlways`, `"no"` to `RestartPolicyNever`, `"on-failure"` to
`RestartPolicyOnFailure`, and on every other string (the comparison is exact) it
ends fatally, with a diagnostic that contains the service name. -/
theorem configureRestartPolicy_spec (name : Str) (service : ServiceConfig) :
    ((service.Restart = "".data ∨ service.Restart = "always".data) →
      configureRestartPolicy name service = .ok .RestartPolicyAlways) ∧
    (service.Restart = "no".data →
      configureRestartPolicy name service = .ok .RestartPolicyNever) ∧
    (service.Restart = "on-failure".data →
      configureRestartPolicy name service = .ok .RestartPolicyOnFailure) ∧
    (service.Restart ∉ ["".data, "always".data, "no".data, "on-failure".data] →
      ∃ msg, configureRestartPolicy name service = .error msg ∧ name <:+: msg) := by
  refine ⟨?_, ?_, ?_, ?_⟩
  · intro h
    simp only [configureRestartPolicy, h, if_true]
  · intro h
    rw [configureRestartPolicy, h]
    rfl
  · intro h
    rw [configureRestartPolicy, h]
    rfl
  · intro h
    have h1 : service.Restart ≠ "".data := fun e => h (by rw [e]; decide)
    have h2 : service.Restart ≠ "always".data := fun e => h (by rw [e]; decide)
    have h3 : service.Restart ≠ "no".data := fun e => h (by rw [e]; decide)
    have h4 : service.Restart ≠ "on-failure".data := fun e => h (by rw [e]; decide)
    refine ⟨"Unknown restart policy ".data ++ service.Restart ++ " for service ".data ++ name,
      ?_, ?_⟩
    · rw [configureRestartPolicy, if_neg (not_or.mpr ⟨h1, h2⟩), if_neg h3, if_neg h4]
    · exact ⟨"Unknown restart policy ".data ++ service.Restart ++ " for service ".data, [],
        by simp⟩

/-- C1, at concrete inputs: the spelling `Always` is not accepted for service `web`. -/
theorem configureRestartPolicy_spec_witness :
    ∃ msg, configureRestartPolicy "web".data
        { serviceWithPorts [] with Restart := "Always".data } = .error msg ∧
      "web".data <:+: msg :=
  (configureRestartPolicy_spec "web".data
    { serviceWithPorts [] with Restart := "Always".data }).2.2.2 (by decide)

/-- C2: for an integer `n` in the signed 32-bit range, written in decimal as `d`, every
port string of one of the forms `d`, `h:d` with a host part `h` free of colons, and
`"d"` in double quotes is mapped by `configurePorts` to the container port `n`. -/
theorem configurePorts_decimal_forms (name : Str) (service : ServiceConfig) (n : Int)
    (hn : - 2 ^ 31 ≤ n ∧ n ≤ 2 ^ 31 - 1)
    (hforms : ∀ p ∈ service.Ports,
      p = decimal n ∨ (∃ h, ':' ∉ h ∧ p = h ++ ":".data ++ decimal n) ∨
        p = [dquote] ++ decimal n ++ [dquote]) :
    configurePorts name service =
      .ok (service.Ports.map (fun _ => { ContainerPort := n })) := by
  obtain ⟨hne, hch⟩ := decimal_chars n
  have hdc := decimal_no_colon n
  have hval := int32TextValue_decimal n hn
  apply configurePortsLoop_of_forall
  intro p hp
  have hquoted : ∀ qa qb : Str, (∀ c ∈ qa, c = dquote) → (∀ c ∈ qb, c = dquote) →
      configurePort name (qa ++ decimal n ++ qb) = .ok { ContainerPort := n } := by
    intro qa qb hqa hqb
    have hs := strip_quotes_then_space qa [] (decimal n) [] qb hne hch hqa hqb
      (by simp) (by simp)
    simp only [List.nil_append, List.append_nil] at hs
    rw [configurePort_ok_iff]
    · simp only [effectivePortTextOrdered, hs, afterColon_of_not_mem _ hdc, hval]
    · rw [hs, List.count_eq_zero_of_not_mem hdc]
      omega
  rcases hforms p hp with h | ⟨h, hh, hph⟩ | h
  · rw [h]
    simpa using hquoted [] [] (by simp) (by simp)
  · obtain ⟨h2, hsuf, hs⟩ := strip_host_colon h (decimal n) hne hch
    have hh2 : ':' ∉ h2 := fun hc => hh (hsuf.subset hc)
    have hpe : p = h ++ ':' :: decimal n := by rw [hph]; simp
    rw [hpe, configurePort_ok_iff]
    · simp only [effectivePortTextOrdered, hs, afterColon_append _ _ hh2, hval]
    · rw [hs, List.count_append, List.count_cons_self, List.count_eq_zero_of_not_mem hdc,
        List.count_eq_zero_of_not_mem hh2]
  · rw [h]
    exact hquoted [dquote] [dquote] (by simp) (by simp)

/-- C2, at the port strings `8080`, `80:8080` and `"9000"`. -/
theorem configurePorts_decimal_forms_witness :
    configurePorts "web".data (serviceWithPorts ["8080".data, "80:8080".data]) =
        .ok [{ ContainerPort := 8080 }, { ContainerPort := 8080 }] ∧
    configurePorts "web".data (serviceWithPorts ["\"9000\"".data]) =
        .ok [{ ContainerPort := 9000 }] :=
  ⟨configurePorts_decimal_forms "web".data (serviceWithPorts ["8080".data, "80:8080".data])
      8080 (by decide)
      (by
        intro p hp
        simp only [serviceWithPorts, List.mem_cons, List.mem_singleton, List.not_mem_nil,
          or_false] at hp
        rcases hp with h | h
        · exact Or.inl (by rw [h]; decide)
        · exact Or.inr (Or.inl ⟨"80".data, by decide, by rw [h]; decide⟩)),
   configurePorts_decimal_forms "web".data (serviceWithPorts ["\"9000\"".data])
      9000 (by decide)
      (by
        intro p hp
        simp only [serviceWithPorts, List.mem_cons, List.mem_singleton, List.not_mem_nil,
          or_false] at hp
        exact Or.inr (Or.inr (by rw [hp]; decide)))⟩

theorem forall₂_exists_of_forall {α β : Type} (R : α → β → Prop) (l : List α)
    (h : ∀ a ∈ l, ∃ b, R a b) : ∃ out, List.Forall₂ R l out := by
  induction l with
  | nil => exact ⟨[], List.Forall₂.nil⟩
  | cons a t ih =>
    obtain ⟨b, hb⟩ := h a (by simp)
    obtain ⟨out, ho⟩ := ih (fun x hx => h x (by simp [hx]))
    exact ⟨b :: out, List.Forall₂.cons hb ho⟩

theorem forall₂_forall_exists {α β : Type} (R : α → β → Prop) (l : List α) (out : List β)
    (h : List.Forall₂ R l out) : ∀ a ∈ l, ∃ b, R a b := by
  induction h with
  | nil => intro a ha; simp at ha
  | cons hab _ ih =>
    intro x hx
    rcases List.mem_cons.mp hx with e | e
    · exact ⟨_, e ▸ hab⟩
    · exact ih x e

theorem forall₂_congr_of_mem {α β : Type} (R S : α → β → Prop) (l : List α) (out : List β)
    (hRS : ∀ a ∈ l, ∀ b, R a b → S a b) (h : List.Forall₂ R l out) : List.Forall₂ S l out := by
  induction h with
  | nil => exact List.Forall₂.nil
  | cons hab _ ih =>
    exact List.Forall₂.cons (hRS _ (by simp) _ hab) (ih (fun a ha => hRS a (by simp [ha])))

/-- C3 fails as stated. (1) For `1:2:3` the code takes the text between the first and
the second colon and answers port 2, although the text after the colon, `2:3`, is no
integer (and the text after the last colon is 3). (2) For ` "8080"`, white space
outside the quotes, the stripped text `8080` is a valid integer but the code fails. -/
theorem configurePorts_effective_text_counterexample :
    (configurePorts "web".data (serviceWithPorts ["1:2:3".data]) =
        .ok [{ ContainerPort := 2 }] ∧
      int32TextValue (effectivePortText "1:2:3".data) = none ∧
      int32TextValue (afterLastColon (stripQuotesAndSpace "1:2:3".data)) = some 3) ∧
    (int32TextValue (effectivePortText " \"8080\"".data) = some 8080 ∧
      configurePorts "web".data (serviceWithPorts [" \"8080\"".data]) =
        .error "Invalid container port \"8080 for service web".data) := by
  decide

/-- C3, amended: when every port string, once its surrounding quotes and then its
surrounding white space are stripped, has at most one colon, `configurePorts` succeeds
exactly when every effective port text (that stripped string, or the part after its
colon) is a valid base-10 signed 32-bit integer; one malformed entry makes the call
fail; and on success the output has the length and order of the input, its i-th
container port being the exact integer value of the i-th effective port text. -/
theorem configurePorts_ok_iff (name : Str) (service : ServiceConfig)
    (hcolon : ∀ p ∈ service.Ports,
      (strings.TrimSpace (strings.Trim p [dquote])).count ':' ≤ 1) :
    (∀ out, configurePorts name service = .ok out ↔
      List.Forall₂
        (fun p q => int32TextValue (effectivePortTextOrdered p) = some q.ContainerPort)
        service.Ports out) ∧
    ((∃ out, configurePorts name service = .ok out) ↔
      ∀ p ∈ service.Ports, ∃ v, int32TextValue (effectivePortTextOrdered p) = some v) ∧
    ((∃ p ∈ service.Ports, int32TextValue (effectivePortTextOrdered p) = none) →
      ∃ msg, configurePorts name service = .error msg) ∧
    (∀ out, configurePorts name service = .ok out → out.length = service.Ports.length) := by
  have key : ∀ out, configurePorts name service = .ok out ↔
      List.Forall₂
        (fun p q => int32TextValue (effectivePortTextOrdered p) = some q.ContainerPort)
        service.Ports out := by
    intro out
    unfold configurePorts
    rw [configurePortsLoop_ok_iff]
    constructor
    · rintro ⟨res, h, hf⟩
      rw [h, List.nil_append]
      exact forall₂_congr_of_mem _ _ _ _
        (fun p hp q hq => (configurePort_ok_iff name p q (hcolon p hp)).mp hq) hf
    · intro hf
      exact ⟨out, rfl, forall₂_congr_of_mem _ _ _ _
        (fun p hp q hq => (configurePort_ok_iff name p q (hcolon p hp)).mpr hq) hf⟩
  refine ⟨key, ?_, ?_, ?_⟩
  · constructor
    · rintro ⟨out, h⟩ p hp
      obtain ⟨q, hq⟩ := forall₂_forall_exists _ _ _ ((key out).mp h) p hp
      exact ⟨_, hq⟩
    · intro h
      obtain ⟨out, ho⟩ := forall₂_exists_of_forall
        (fun p (q : ContainerPort) =>
          int32TextValue (effectivePortTextOrdered p) = some q.ContainerPort)
        service.Ports
        (fun p hp => by
          obtain ⟨v, hv⟩ := h p hp
          exact ⟨{ ContainerPort := v }, hv⟩)
      exact ⟨out, (key out).mpr ho⟩
  · rintro ⟨p, hp, hnone⟩
    rcases h : configurePorts name service with e | out
    · exact ⟨e, rfl⟩
    · obtain ⟨q, hq⟩ := forall₂_forall_exists _ _ _ ((key out).mp h) p hp
      rw [hnone] at hq
      cases hq
  · intro out h
    exact ((key out).mp h).length_eq.symm

/-- C3, amended, at `["80:8080", " 443 "]`: no entry has two colons, and the call
succeeds. -/
theorem configurePorts_ok_iff_witness :
    (∀ p ∈ (serviceWithPorts ["80:8080".data, " 443 ".data]).Ports,
      (strings.TrimSpace (strings.Trim p [dquote])).count ':' ≤ 1) ∧
    ∃ out, configurePorts "web".data (serviceWithPorts ["80:8080".data, " 443 ".data]) =
      .ok out :=
  ⟨by decide,
   (configurePorts_ok_iff "web".data (serviceWithPorts ["80:8080".data, " 443 ".data])
      (by decide)).2.1.mpr
      (by
        intro p hp
        simp only [serviceWithPorts, List.mem_cons, List.mem_singleton, List.not_mem_nil,
          or_false] at hp
        rcases hp with h | h
        · exact ⟨8080, by rw [h]; decide⟩
        · exact ⟨443, by rw [h]; decide⟩)⟩

/-- C4 fails as stated: in ` "8080"` the digits are surrounded by quotes and white
space only, the white space outside the quotes, and `configurePorts` fails. -/
theorem configurePorts_mixed_padding_counterexample :
    (∀ c ∈ " \"".data, isQuoteOrSpace c = true) ∧
    (∀ c ∈ "\"".data, isQuoteOrSpace c = true) ∧
    configurePorts "web".data
        (serviceWithPorts [" \"".data ++ decimal 8080 ++ "\"".data]) =
      .error "Invalid container port \"8080 for service web".data := by
  decide

/-- C4, amended: for an integer `n` in the signed 32-bit range, every port string made
of the decimal digits of `n` with, in front, double quotes and then white space and,
behind, white space and then double quotes (any number of each, the quotes outermost)
is mapped by `configurePorts` to the container port `n`. -/
theorem configurePorts_quotes_around_space (name : Str) (service : ServiceConfig) (n : Int)
    (hn : - 2 ^ 31 ≤ n ∧ n ≤ 2 ^ 31 - 1)
    (hforms : ∀ p ∈ service.Ports, ∃ qa w1 w2 qb : Str,
      (∀ c ∈ qa, c = dquote) ∧ (∀ c ∈ qb, c = dquote) ∧
      (∀ c ∈ w1, unicode.IsSpace c = true) ∧ (∀ c ∈ w2, unicode.IsSpace c = true) ∧
      p = qa ++ (w1 ++ decimal n ++ w2) ++ qb) :
    configurePorts name service =
      .ok (service.Ports.map (fun _ => { ContainerPort := n })) := by
  obtain ⟨hne, hch⟩ := decimal_chars n
  have hdc := decimal_no_colon n
  have hval := int32TextValue_decimal n hn
  apply configurePortsLoop_of_forall
  intro p hp
  obtain ⟨qa, w1, w2, qb, hqa, hqb, hw1, hw2, hpe⟩ := hforms p hp
  have hs := strip_quotes_then_space qa w1 (decimal n) w2 qb hne hch hqa hqb hw1 hw2
  rw [hpe, configurePort_ok_iff]
  · simp only [effectivePortTextOrdered, hs, afterColon_of_not_mem _ hdc, hval]
  · rw [hs, List.count_eq_zero_of_not_mem hdc]
    omega

/-- C4, amended, at the port string `"" 9000 "` with a tab after the digits. -/
theorem configurePorts_quotes_around_space_witness :
    configurePorts "web".data (serviceWithPorts ["\"\" 9000\t\"".data]) =
      .ok [{ ContainerPort := 9000 }] :=
  configurePorts_quotes_around_space "web".data (serviceWithPorts ["\"\" 9000\t\"".data])
    9000 (by decide)
    (by
      intro p hp
      simp only [serviceWithPorts, List.mem_singleton] at hp
      exact ⟨"\"\"".data, " ".data, "\t".data, "\"".data, by decide, by decide, by decide,
        by decide, by rw [hp]; decide⟩)

/-! ## The environment mapper -/

theorem strings.split_singleton_head (c : Char) (b : Str) :
    ∃ rest, strings.Split b [c] = b.takeWhile (fun x => x ≠ c) :: rest := by
  by_cases h : c ∈ b
  · obtain ⟨a, b', hab, hna⟩ := Str.split_at_first c b h
    have hall : ∀ x ∈ a, (fun x => decide (x ≠ c)) x = true := by
      intro x hx
      have : x ≠ c := fun e => hna (e ▸ hx)
      simpa using this
    refine ⟨strings.Split b' [c], ?_⟩
    rw [hab, strings.split_singleton_append c a b' hna, List.takeWhile_append_of_pos hall]
    simp [List.takeWhile_cons]
  · have hall : ∀ x ∈ b, (fun x => decide (x ≠ c)) x = true := by
      intro x hx
      have : x ≠ c := fun e => h (e ▸ hx)
      simpa using this
    refine ⟨[], ?_⟩
    rw [strings.split_singleton_of_not_mem c b h]
    have : (b ++ []).takeWhile (fun x => decide (x ≠ c)) = b ++ [].takeWhile _ :=
      List.takeWhile_append_of_pos hall
    simp only [List.append_nil, List.takeWhile_nil] at this
    rw [this]

/-- The first two pieces of a string split at `=`, for a string that has an `=`. -/
theorem strings.split_eq_parts (e : Str) (h : '=' ∈ e) :
    ∃ rest, strings.Split e "=".data = beforeEq e :: beforeEq (afterEq e) :: rest := by
  have hc : "=".data = ['='] := rfl
  obtain ⟨a, b, hab, hna⟩ := Str.split_at_first '=' e h
  have hall : ∀ x ∈ a, (fun x => decide (x ≠ '=')) x = true := by
    intro x hx
    have : x ≠ '=' := fun e => hna (e ▸ hx)
    simpa using this
  obtain ⟨rest, hrest⟩ := strings.split_singleton_head '=' b
  refine ⟨rest, ?_⟩
  have h1 : beforeEq e = a := by
    unfold beforeEq
    rw [hab, List.takeWhile_append_of_pos hall]
    simp [List.takeWhile_cons]
  have h2 : afterEq e = b := by
    unfold afterEq
    rw [hab, List.dropWhile_append_of_pos hall]
    simp [List.dropWhile_cons]
  rw [hc, h1, h2, beforeEq, ← hrest, hab, strings.split_singleton_append '=' a b hna]

/-- What the loop of `configureVariables` appends: one entry for each string with an
`=`, in order; its name is the text before the first `=`, its value the text between
the first and the second `=`, with the sentinel in front in the display format. -/
theorem configureVariablesLoop_eq (env : Env) (l : List Str) :
    ∀ acc : List EnvVar,
      configureVariablesLoop env l acc =
        .ok (acc ++ (l.filter (fun e => decide ('=' ∈ e))).map (fun e =>
          { Name := beforeEq e
            Value := if env.asJSON = true then beforeEq (afterEq e)
              else "\rYMLMARSHALBUG".data ++ beforeEq (afterEq e) })) := by
  induction l with
  | nil => intro acc; simp [configureVariablesLoop]
  | cons e rest ih =>
    intro acc
    rw [configureVariablesLoop]
    by_cases h : '=' ∈ e
    · have hc : strings.Contains e "=".data = true :=
        (strings.contains_singleton_iff e '=').mpr h
      obtain ⟨r, hr⟩ := strings.split_eq_parts e h
      rw [if_pos hc, hr]
      simp only []
      rw [ih, List.filter_cons_of_pos (by simpa using h)]
      simp
    · have hc : ¬ strings.Contains e "=".data = true := fun hh =>
        h ((strings.contains_singleton_iff e '=').mp hh)
      rw [if_neg hc, ih, List.filter_cons_of_neg (by simpa using h)]

theorem sentinel_literal : "\rYMLMARSHALBUG".data = sentinelMarker := by decide

theorem removeSentinelValue_append (v : Str) : removeSentinelValue (sentinelMarker ++ v) = v := by
  have h : sentinelMarker.isPrefixOf (sentinelMarker ++ v) = true :=
    List.isPrefixOf_iff_prefix.mpr (List.prefix_append _ _)
  rw [removeSentinelValue, if_pos h, List.drop_left]

/-- C5: in both output formats and for every environment list, `configureVariables`
returns a list whose first entry is `NAMESPACE` with the resolved namespace as its
value (no sentinel in front); the other entries are, in descriptor order, one entry
for each descriptor string that contains `=`, named by the text before its first
`=`; strings without `=` give no entry, so the length is one plus the number of
strings containing `=`. -/
theorem configureVariables_namespace_first (env : Env) (service : ServiceConfig) :
    ∃ entries : List EnvVar,
      configureVariables env service =
        .ok ({ Name := "NAMESPACE".data, Value := env.calculateNamespace } :: entries) ∧
      entries.map (fun v => v.Name) =
        (service.Environment.filter (fun e => decide ('=' ∈ e))).map beforeEq ∧
      (({ Name := "NAMESPACE".data, Value := env.calculateNamespace } : EnvVar) :: entries).length =
        1 + service.Environment.countP (fun e => decide ('=' ∈ e)) := by
  refine ⟨(service.Environment.filter (fun e => decide ('=' ∈ e))).map (fun e =>
      { Name := beforeEq e
        Value := if env.asJSON = true then beforeEq (afterEq e)
          else "\rYMLMARSHALBUG".data ++ beforeEq (afterEq e) }), ?_, ?_, ?_⟩
  · rw [configureVariables, configureVariablesLoop_eq]
    rfl
  · rw [List.map_map]
    rfl
  · rw [List.length_cons, List.length_map, List.countP_eq_length_filter]
    omega

/-- C6 fails on the code: in machine-readable mode the environment string `OPTS=a=b`
gives the entry `OPTS` with value `a`, not the text `a=b` after the first `=`. -/
theorem configureVariables_value_cut_at_second_eq :
    configureVariables (envWith true "default".data)
        (serviceWithEnvironment ["OPTS=a=b".data]) =
      .ok [{ Name := "NAMESPACE".data, Value := "default".data },
           { Name := "OPTS".data, Value := "a".data }] ∧
    afterEq "OPTS=a=b".data = "a=b".data ∧
    "OPTS".data ++ "=".data ++ "a".data ≠ "OPTS=a=b".data := by
  decide

/-- C7: for every environment list the display-format result of `configureVariables`
and its machine-readable result have the same first entry (`NAMESPACE`), the same
length, the same names in the same order; the value of each descriptor-derived
display-format entry is the sentinel marker followed by the machine-readable value;
and removing that marker from the display-format values gives back the
machine-readable result. -/
theorem configureVariables_formats_differ_by_sentinel (env : Env) (service : ServiceConfig) :
    ∃ (first : EnvVar) (machine display : List EnvVar),
      configureVariables { env with asJSON := true } service = .ok (first :: machine) ∧
      configureVariables { env with asJSON := false } service = .ok (first :: display) ∧
      first = { Name := "NAMESPACE".data, Value := env.calculateNamespace } ∧
      display.length = machine.length ∧
      display.map (fun v => v.Name) = machine.map (fun v => v.Name) ∧
      List.Forall₂
        (fun d m => d.Name = m.Name ∧ d.Value = sentinelMarker ++ m.Value) display machine ∧
      display.map EnvVar.removeSentinel = machine := by
  refine ⟨{ Name := "NAMESPACE".data, Value := env.calculateNamespace },
    (service.Environment.filter (fun e => decide ('=' ∈ e))).map
      (fun e => { Name := beforeEq e, Value := beforeEq (afterEq e) }),
    (service.Environment.filter (fun e => decide ('=' ∈ e))).map
      (fun e => { Name := beforeEq e, Value := sentinelMarker ++ beforeEq (afterEq e) }),
    ?_, ?_, rfl, ?_, ?_, ?_, ?_⟩
  · rw [configureVariables, configureVariablesLoop_eq]
    rfl
  · rw [configureVariables, configureVariablesLoop_eq, sentinel_literal]
    rfl
  · simp
  · simp [List.map_map, Function.comp_def]
  · generalize service.Environment.filter (fun e => decide ('=' ∈ e)) = l
    induction l with
    | nil => exact List.Forall₂.nil
    | cons e t ih => exact List.Forall₂.cons ⟨rfl, rfl⟩ ih
  · rw [List.map_map]
    apply List.map_congr_left
    intro e _
    simp [EnvVar.removeSentinel, removeSentinelValue_append]

/-! ## Go maps and the label mapper -/

theorem GoMap.get_set (m : GoMap) (k v k' : Str) :
    (m.set k v).get k' = if k' = k then some v else m.get k' := by
  induction m with
  | nil =>
    by_cases h : k' = k
    · simp [GoMap.set, GoMap.get, List.lookup, h]
    · have : (k' == k) = false := beq_eq_false_iff_ne.mpr h
      simp [GoMap.set, GoMap.get, List.lookup, h, this]
  | cons kv m ih =>
    obtain ⟨k0, v0⟩ := kv
    simp only [GoMap.get] at ih
    by_cases h0 : k0 = k
    · simp only [GoMap.set, h0, if_true, GoMap.get, List.lookup_cons]
      by_cases h : k' = k
      · simp [h]
      · have : (k' == k) = false := beq_eq_false_iff_ne.mpr h
        simp [h, this]
    · simp only [GoMap.set, h0, if_false, GoMap.get, List.lookup_cons]
      by_cases h1 : k' = k0
      · have hne : ¬ k' = k := fun e => h0 (h1 ▸ e)
        simp [h1, h0]
      · have : (k' == k0) = false := beq_eq_false_iff_ne.mpr h1
        simp only [this]
        exact ih

theorem GoMap.mem_keys_set (m : GoMap) (k v k' : Str) :
    k' ∈ (m.set k v).keys ↔ k' = k ∨ k' ∈ m.keys := by
  induction m with
  | nil => simp [GoMap.set, GoMap.keys]
  | cons kv m ih =>
    obtain ⟨k0, v0⟩ := kv
    simp only [GoMap.keys] at ih
    by_cases h0 : k0 = k
    · simp [GoMap.set, GoMap.keys, h0]
    · simp only [GoMap.set, h0, if_false, GoMap.keys, List.map_cons, List.mem_cons, ih]
      tauto

theorem GoMap.nodup_keys_set (m : GoMap) (k v : Str) (h : m.keys.Nodup) :
    (m.set k v).keys.Nodup := by
  induction m with
  | nil => simp [GoMap.set, GoMap.keys]
  | cons kv m ih =>
    obtain ⟨k0, v0⟩ := kv
    simp only [GoMap.keys, List.map_cons, List.nodup_cons] at h ih ⊢
    by_cases h0 : k0 = k
    · simp only [GoMap.set, h0, if_true, List.map_cons, List.nodup_cons]
      exact ⟨h0 ▸ h.1, h.2⟩
    · simp only [GoMap.set, h0, if_false, List.map_cons, List.nodup_cons]
      refine ⟨?_, ih h.2⟩
      intro hm
      rcases (GoMap.mem_keys_set m k v k0).mp hm with e | e
      · exact h0 e
      · exact h.1 e

/-- In a list of entries with distinct keys, looking a key up finds its entry. -/
theorem lookup_eq_some_of_mem (l : List (Str × Str)) (h : (l.map Prod.fst).Nodup)
    (k v : Str) : List.lookup k l = some v ↔ (k, v) ∈ l := by
  induction l with
  | nil => simp
  | cons kv t ih =>
    obtain ⟨k0, v0⟩ := kv
    simp only [List.map_cons, List.nodup_cons] at h
    rw [List.lookup_cons]
    by_cases hk : k = k0
    · subst hk
      simp only [beq_self_eq_true, Option.some.injEq, List.mem_cons, Prod.mk.injEq, true_and]
      constructor
      · intro e; exact Or.inl e.symm
      · rintro (e | e)
        · exact e.symm
        · exact absurd (List.mem_map_of_mem Prod.fst e) h.1
    · have : (k == k0) = false := beq_eq_false_iff_ne.mpr hk
      simp only [this, List.mem_cons, Prod.mk.injEq, hk, false_and, false_or]
      exact ih h.2

theorem lookup_eq_none_of_not_mem (l : List (Str × Str)) (k : Str)
    (h : k ∉ l.map Prod.fst) : List.lookup k l = none := by
  induction l with
  | nil => rfl
  | cons kv t ih =>
    obtain ⟨k0, v0⟩ := kv
    simp only [List.map_cons, List.mem_cons, not_or] at h
    have : (k == k0) = false := beq_eq_false_iff_ne.mpr h.1
    rw [List.lookup_cons, this]
    exact ih h.2

/-- The value of a key after the loop of `configureLabels`, for an input map (distinct
keys): the descriptor value if the key is a descriptor key without the scheduler
substring, else the value it had before the loop. -/
theorem configureLabelsLoop_get (l : List (Str × Str)) :
    ∀ (m : GoMap) (k : Str), (l.map Prod.fst).Nodup →
      (configureLabelsLoop l m).get k =
        if "io.rancher.scheduler".data <:+: k then m.get k
        else match List.lookup k l with
          | some v => some v
          | none => m.get k := by
  induction l with
  | nil => intro m k _; simp [configureLabelsLoop]
  | cons kv t ih =>
    intro m k h
    obtain ⟨k0, v0⟩ := kv
    simp only [List.map_cons, List.nodup_cons] at h
    rw [configureLabelsLoop]
    simp only []
    by_cases hinv : strings.Index k0 "io.rancher.scheduler".data ≥ 0
    · have hsub : "io.rancher.scheduler".data <:+: k0 := (strings.index_nonneg_iff _ _).mp hinv
      rw [if_pos hinv, ih m k h.2]
      by_cases hk : "io.rancher.scheduler".data <:+: k
      · simp only [hk, if_true]
      · have hne : k ≠ k0 := fun e => hk (e ▸ hsub)
        have : (k == k0) = false := beq_eq_false_iff_ne.mpr hne
        simp only [hk, if_false, List.lookup_cons, this]
    · have hsub : ¬ "io.rancher.scheduler".data <:+: k0 := fun e =>
        hinv ((strings.index_nonneg_iff _ _).mpr e)
      rw [if_neg hinv, ih _ k h.2, GoMap.get_set]
      by_cases hk : "io.rancher.scheduler".data <:+: k
      · have hne : k ≠ k0 := fun e => hsub (e ▸ hk)
        simp only [hk, if_true, hne, if_false]
      · simp only [hk, if_false]
        by_cases hkk : k = k0
        · subst hkk
          rw [lookup_eq_none_of_not_mem t k h.1]
          simp
        · have : (k == k0) = false := beq_eq_false_iff_ne.mpr hkk
          simp only [hkk, if_false, List.lookup_cons, this]

theorem configureLabelsLoop_keys (l : List (Str × Str)) :
    ∀ (m : GoMap) (k : Str),
      k ∈ (configureLabelsLoop l m).keys ↔
        k ∈ m.keys ∨ (k ∈ l.map Prod.fst ∧ ¬ "io.rancher.scheduler".data <:+: k) := by
  induction l with
  | nil => intro m k; simp [configureLabelsLoop]
  | cons kv t ih =>
    intro m k
    obtain ⟨k0, v0⟩ := kv
    rw [configureLabelsLoop]
    simp only []
    by_cases hinv : strings.Index k0 "io.rancher.scheduler".data ≥ 0
    · have hsub : "io.rancher.scheduler".data <:+: k0 := (strings.index_nonneg_iff _ _).mp hinv
      rw [if_pos hinv, ih m k]
      simp only [List.map_cons, List.mem_cons]
      constructor
      · rintro (h | ⟨h1, h2⟩)
        · exact Or.inl h
        · exact Or.inr ⟨Or.inr h1, h2⟩
      · rintro (h | ⟨h1 | h1, h2⟩)
        · exact Or.inl h
        · exact absurd (h1 ▸ hsub) h2
        · exact Or.inr ⟨h1, h2⟩
    · have hsub : ¬ "io.rancher.scheduler".data <:+: k0 := fun e =>
        hinv ((strings.index_nonneg_iff _ _).mpr e)
      rw [if_neg hinv, ih _ k, GoMap.mem_keys_set]
      simp only [List.map_cons, List.mem_cons]
      constructor
      · rintro ((h | h) | ⟨h1, h2⟩)
        · exact Or.inr ⟨Or.inl h, h ▸ hsub⟩
        · exact Or.inl h
        · exact Or.inr ⟨Or.inr h1, h2⟩
      · rintro (h | ⟨h1 | h1, h2⟩)
        · exact Or.inl (Or.inr h)
        · exact Or.inl (Or.inl h1)
        · exact Or.inr ⟨h1, h2⟩

theorem configureLabelsLoop_nodup (l : List (Str × Str)) :
    ∀ m : GoMap, m.keys.Nodup → (configureLabelsLoop l m).keys.Nodup := by
  induction l with
  | nil => intro m h; simpa [configureLabelsLoop] using h
  | cons kv t ih =>
    intro m h
    obtain ⟨k0, v0⟩ := kv
    rw [configureLabelsLoop]
    simp only []
    split
    · exact ih m h
    · exact ih _ (GoMap.nodup_keys_set m k0 v0 h)

/-- C9 fails on the code: for the short name `web` and the descriptor label map
`{"service": "db"}` the controller's selector is `{"service": "web"}` while its
pod-template labels are `{"service": "db"}`; the descriptor entry overwrites the
label set before the loop. -/
theorem createReplicationController_service_label_overwritten :
    (createReplicationController (envWith true "default".data) "web".data "web".data
        (serviceWithLabels [("service".data, "db".data)])).toOption.map
      (fun rc => (rc.Spec.Selector, rc.Spec.Template.ObjectMeta.Labels,
        rc.Spec.Template.ObjectMeta.Labels.get "service".data)) =
      some ([("service".data, "web".data)], [("service".data, "db".data)],
        some "db".data) := by
  decide

/-- C10: `configureLabels` is a total function and, for every descriptor label map
(entries with distinct keys, in any iteration order), the keys of its result are
exactly `service` and the descriptor keys that do not contain `io.rancher.scheduler`,
each once; every such descriptor key other than `service` keeps its descriptor value;
no key containing `io.rancher.scheduler` is in the result; and the result, read as a
map, is the same for every iteration order of the descriptor map. -/
theorem configureLabels_spec (shortName : Str) (service : ServiceConfig)
    (hmap : (service.Labels.map Prod.fst).Nodup) :
    (∀ k, k ∈ (configureLabels shortName service).keys ↔
      k = "service".data ∨
        (k ∈ service.Labels.map Prod.fst ∧ ¬ "io.rancher.scheduler".data <:+: k)) ∧
    (configureLabels shortName service).keys.Nodup ∧
    (∀ k v, (k, v) ∈ service.Labels → ¬ "io.rancher.scheduler".data <:+: k →
      k ≠ "service".data → (configureLabels shortName service).get k = some v) ∧
    (∀ k ∈ (configureLabels shortName service).keys,
      ¬ "io.rancher.scheduler".data <:+: k) ∧
    (∀ service2 : ServiceConfig, service2.Labels.Perm service.Labels →
      ∀ k, (configureLabels shortName service2).get k =
        (configureLabels shortName service).get k) := by
  have hkeys : ∀ k, k ∈ (configureLabels shortName service).keys ↔
      k = "service".data ∨
        (k ∈ service.Labels.map Prod.fst ∧ ¬ "io.rancher.scheduler".data <:+: k) := by
    intro k
    rw [configureLabels, configureLabelsLoop_keys]
    simp [GoMap.set, GoMap.keys]
  have hservice : ¬ "io.rancher.scheduler".data <:+: "service".data := by decide
  refine ⟨hkeys, ?_, ?_, ?_, ?_⟩
  · apply configureLabelsLoop_nodup
    simp [GoMap.set, GoMap.keys]
  · intro k v hkv hk _
    rw [configureLabels, configureLabelsLoop_get _ _ _ hmap, if_neg hk,
      (lookup_eq_some_of_mem _ hmap k v).mpr hkv]
  · intro k hk
    rcases (hkeys k).mp hk with e | ⟨_, e⟩
    · rw [e]; exact hservice
    · exact e
  · intro service2 hperm k
    have hmap2 : (service2.Labels.map Prod.fst).Nodup :=
      (hperm.map Prod.fst).nodup_iff.mpr hmap
    have hlook : List.lookup k service2.Labels = List.lookup k service.Labels := by
      apply Option.ext
      intro v
      rw [Option.mem_def, Option.mem_def, lookup_eq_some_of_mem _ hmap2,
        lookup_eq_some_of_mem _ hmap]
      exact hperm.mem_iff
    rw [configureLabels, configureLabels, configureLabelsLoop_get _ _ _ hmap2,
      configureLabelsLoop_get _ _ _ hmap, hlook]

/-- C10, at the label map `{"env": "prod", "io.rancher.scheduler.global": "true"}`:
the result has the keys `service` and `env` only. -/
theorem configureLabels_spec_witness :
    (∀ k ∈ (configureLabels "web".data (serviceWithLabels
        [("env".data, "prod".data), ("io.rancher.scheduler.global".data, "true".data)])).keys,
      ¬ "io.rancher.scheduler".data <:+: k) ∧
    configureLabels "web".data (serviceWithLabels
        [("env".data, "prod".data), ("io.rancher.scheduler.global".data, "true".data)]) =
      [("service".data, "web".data), ("env".data, "prod".data)] :=
  ⟨(configureLabels_spec "web".data (serviceWithLabels
      [("env".data, "prod".data), ("io.rancher.scheduler.global".data, "true".data)])
      (by decide)).2.2.2.1, by decide⟩

/-! ## Lemmas on `strings.Replace` -/

theorem strings.replaceLoop_of_not_infix (old new : Str) (_hold : old ≠ []) (s : Str)
    (h : ¬ old <:+: s) : strings.replaceLoop old new s 0 = s := by
  induction s with
  | nil => rfl
  | cons c t ih =>
    have hp : ¬ old.isPrefixOf (c :: t) = true := fun e =>
      h (List.isPrefixOf_iff_prefix.mp e).isInfix
    have ht : ¬ old <:+: t := fun e => h (List.infix_cons e)
    rw [strings.replaceLoop, if_neg hp, ih ht]

theorem yamlDoubleQuoted_eq (v : Str) :
    yamlDoubleQuoted v = dquote :: (yamlEscape v ++ [dquote]) := rfl

theorem strings.replaceLoop_skip (old new p rest : Str) :
    strings.replaceLoop old new (p ++ rest) p.length = strings.replaceLoop old new rest 0 := by
  induction p with
  | nil => rfl
  | cons c t ih =>
    simp only [List.cons_append, List.length_cons, strings.replaceLoop]
    exact ih

theorem strings.replaceLoop_match (old new rest : Str) (hold : old ≠ []) :
    strings.replaceLoop old new (old ++ rest) 0 =
      new ++ strings.replaceLoop old new rest 0 := by
  cases old with
  | nil => exact absurd rfl hold
  | cons c o =>
    have hp : (c :: o).isPrefixOf (c :: (o ++ rest)) = true :=
      List.isPrefixOf_iff_prefix.mpr ⟨rest, by simp⟩
    rw [List.cons_append, strings.replaceLoop, if_pos hp]
    simp only [List.length_cons, Nat.add_sub_cancel]
    rw [strings.replaceLoop_skip]

theorem strings.replace_of_not_infix (s old new : Str) (hold : old ≠ [])
    (h : ¬ old <:+: s) : strings.Replace s old new = s := by
  rw [strings.Replace, if_neg hold, strings.replaceLoop_of_not_infix old new hold s h]

/-- A pattern that occurs in `x :: l ++ [y]` occurs in `l`, if it holds neither `x` nor
`y`. -/
theorem infix_of_infix_wrapped (pat l : Str) (x y : Char) (hne : pat ≠ [])
    (hx : x ∉ pat) (hy : y ∉ pat) (h : pat <:+: x :: (l ++ [y])) : pat <:+: l := by
  rcases List.infix_cons_iff.mp h with h1 | h1
  · rcases List.prefix_cons_iff.mp h1 with e | ⟨t, e, _⟩
    · exact absurd e hne
    · exact absurd (by rw [e]; simp) hx
  · rcases List.infix_concat_iff.mp h1 with h2 | h2
    · rcases List.suffix_concat_iff.mp h2 with e | ⟨t, e, _⟩
      · exact absurd e hne
      · exact absurd (by rw [e]; simp) hy
    · exact h2

theorem infix_of_infix_concat (pat l : Str) (y : Char) (hne : pat ≠ [])
    (hy : y ∉ pat) (h : pat <:+: l ++ [y]) : pat <:+: l := by
  rcases List.infix_concat_iff.mp h with h2 | h2
  · rcases List.suffix_concat_iff.mp h2 with e | ⟨t, e, _⟩
    · exact absurd e hne
    · exact absurd (by rw [e]; simp) hy
  · exact h2

/-! ## The text written for an environment value -/

theorem yamlEscape_append (a b : Str) : yamlEscape (a ++ b) = yamlEscape a ++ yamlEscape b := by
  simp [yamlEscape]

theorem yamlEscape_sentinel : yamlEscape sentinelMarker = escapedSentinel := by decide

/-- A value that carries the sentinel in front is written between double quotes, and
the fix-up of `writeFile` leaves the double-quoted form of the value behind it, unless
the escaped value holds the escaped sentinel or `ExternalName:`. -/
theorem displayValueText_sentinel (m : Str)
    (h1 : ¬ escapedSentinel <:+: yamlEscape m)
    (h2 : ¬ "ExternalName:".data <:+: yamlEscape m) :
    displayValueText (sentinelMarker ++ m) = yamlDoubleQuoted m := by
  have hcr : Char.ofNat 13 ∈ sentinelMarker ++ m := by simp [sentinelMarker]
  have hes : escapedSentinel ≠ [] := by decide
  have hq1 : dquote ∉ escapedSentinel := by decide
  have hq2 : dquote ∉ "ExternalName:".data := by decide
  have hnp : ¬ escapedSentinel.isPrefixOf
      (dquote :: (escapedSentinel ++ (yamlEscape m ++ [dquote]))) = true := by
    intro e
    rcases List.prefix_cons_iff.mp (List.isPrefixOf_iff_prefix.mp e) with e1 | ⟨t, e1, _⟩
    · exact hes e1
    · exact hq1 (by rw [e1]; simp)
  have hrest : ¬ escapedSentinel <:+: yamlEscape m ++ [dquote] := fun e =>
    h1 (infix_of_infix_concat _ _ dquote hes hq1 e)
  have hstep : strings.Replace (yamlDoubleQuoted (sentinelMarker ++ m)) escapedSentinel "".data
      = yamlDoubleQuoted m := by
    rw [strings.Replace, if_neg hes, yamlDoubleQuoted_eq, yamlEscape_append,
      yamlEscape_sentinel, List.append_assoc, strings.replaceLoop, if_neg hnp,
      strings.replaceLoop_match _ _ _ hes,
      strings.replaceLoop_of_not_infix _ _ hes _ hrest]
    rfl
  have hext : ¬ "ExternalName:".data <:+: yamlDoubleQuoted m := fun e =>
    h2 (infix_of_infix_wrapped _ _ dquote dquote (by decide) hq2 hq2
      (by rw [yamlDoubleQuoted_eq] at e; exact e))
  rw [displayValueText, yamlScalar, if_pos hcr, fixDisplayText]
  simp only []
  rw [hstep, strings.replace_of_not_infix _ _ _ (by decide) hext]

/-- In the display format, every descriptor-derived entry of `configureVariables` (every
entry after `NAMESPACE`) is written as its machine-readable value between double
quotes, the sentinel marker removed, provided the escaped value holds neither the
escaped sentinel text nor `ExternalName:`. -/
theorem display_values_double_quoted (env : Env) (service : ServiceConfig) :
    ∃ (first : EnvVar) (machine display : List EnvVar),
      configureVariables { env with asJSON := true } service = .ok (first :: machine) ∧
      configureVariables { env with asJSON := false } service = .ok (first :: display) ∧
      List.Forall₂
        (fun d m => d.Name = m.Name ∧
          (¬ escapedSentinel <:+: yamlEscape m.Value →
            ¬ "ExternalName:".data <:+: yamlEscape m.Value →
            displayValueText d.Value = yamlDoubleQuoted m.Value))
        display machine := by
  refine ⟨{ Name := "NAMESPACE".data, Value := env.calculateNamespace },
    (service.Environment.filter (fun e => decide ('=' ∈ e))).map
      (fun e => { Name := beforeEq e, Value := beforeEq (afterEq e) }),
    (service.Environment.filter (fun e => decide ('=' ∈ e))).map
      (fun e => { Name := beforeEq e, Value := sentinelMarker ++ beforeEq (afterEq e) }),
    ?_, ?_, ?_⟩
  · rw [configureVariables, configureVariablesLoop_eq]
    rfl
  · rw [configureVariables, configureVariablesLoop_eq, sentinel_literal]
    rfl
  · generalize service.Environment.filter (fun e => decide ('=' ∈ e)) = l
    induction l with
    | nil => exact List.Forall₂.nil
    | cons e t ih =>
      exact List.Forall₂.cons ⟨rfl, fun h1 h2 => displayValueText_sentinel _ h1 h2⟩ ih

/-- C8 fails on the code. In the display format the entry of `PORT=8080` carries the
sentinel and is written `"8080"`, but the `NAMESPACE` entry carries none, so its value
`default` is written without quotes. Moreover the descriptor value `ExternalName:x` is
written `"# ExternalName:x"` (the second replacement of `writeFile` changes it), and
the descriptor value backslash-`rYMLMARSHALBUG` loses its text (the first replacement
deletes it as well). -/
theorem display_namespace_value_unquoted :
    (configureVariables (envWith false "default".data)
          (serviceWithEnvironment ["PORT=8080".data]) =
        .ok [{ Name := "NAMESPACE".data, Value := "default".data },
             { Name := "PORT".data, Value := sentinelMarker ++ "8080".data }] ∧
      displayValueText (sentinelMarker ++ "8080".data) = "\"8080\"".data ∧
      displayValueText "default".data = "default".data) ∧
    (configureVariables (envWith false "default".data)
          (serviceWithEnvironment ["B=ExternalName:x".data]) =
        .ok [{ Name := "NAMESPACE".data, Value := "default".data },
             { Name := "B".data, Value := sentinelMarker ++ "ExternalName:x".data }] ∧
      displayValueText (sentinelMarker ++ "ExternalName:x".data) =
        "\"# ExternalName:x\"".data) ∧
    (configureVariables (envWith false "default".data)
          (serviceWithEnvironment ["A=\\rYMLMARSHALBUG".data]) =
        .ok [{ Name := "NAMESPACE".data, Value := "default".data },
             { Name := "A".data, Value := sentinelMarker ++ "\\rYMLMARSHALBUG".data }] ∧
      displayValueText (sentinelMarker ++ "\\rYMLMARSHALBUG".data) = "\"\\\"".data) := by
  decide

/-! ## The affinity mapper -/

theorem strings.splitLoop_singleton_cons (c x : Char) (t : Str) :
    strings.splitLoop [c] (x :: t) 0 =
      if x = c then [] :: strings.splitLoop [c] t 0
      else strings.consHead x (strings.splitLoop [c] t 0) := by
  by_cases h : x = c
  · subst h
    simp [strings.splitLoop]
  · have : c ≠ x := fun e => h e.symm
    simp [strings.splitLoop, h, this]

theorem strings.splitLoop_singleton_length (c : Char) (s : Str) :
    (strings.splitLoop [c] s 0).length = s.count c + 1 := by
  induction s with
  | nil => rfl
  | cons x t ih =>
    rw [strings.splitLoop_singleton_cons]
    by_cases h : x = c
    · subst h
      simp [ih]
    · rw [if_neg h, List.count_cons_of_ne (fun e => h e.symm)]
      cases hs : strings.splitLoop [c] t 0 with
      | nil => rw [hs] at ih; simp at ih
      | cons p ps => rw [hs] at ih; simpa [strings.consHead] using ih

theorem strings.split_singleton_length (c : Char) (s : Str) :
    (strings.Split s [c]).length = s.count c + 1 := by
  simp [strings.Split, strings.splitLoop_singleton_length]

theorem strings.split_singleton_pair (c : Char) (k v : Str) (hk : c ∉ k) (hv : c ∉ v) :
    strings.Split (k ++ c :: v) [c] = [k, v] := by
  rw [strings.split_singleton_append c k v hk, strings.split_singleton_of_not_mem c v hv]

theorem configureAffinityLoop_of_not_mem (l : List (Str × Str)) :
    ∀ affinity : GoMap, hostLabelKey ∉ l.map Prod.fst →
      configureAffinityLoop l affinity = affinity := by
  induction l with
  | nil => intro a _; rfl
  | cons kv t ih =>
    intro a h
    obtain ⟨k0, v0⟩ := kv
    simp only [List.map_cons, List.mem_cons, not_or] at h
    have hne : ¬ k0 = "io.rancher.scheduler.affinity:host_label".data := fun e => h.1 e.symm
    rw [configureAffinityLoop, if_neg hne]
    exact ih a h.2

/-- The loop of `configureAffinity` on a label map (distinct keys) that holds the
host-label key: only the value of that key is looked at. -/
theorem configureAffinityLoop_of_mem (l : List (Str × Str)) :
    ∀ (affinity : GoMap) (value : Str), (l.map Prod.fst).Nodup → (hostLabelKey, value) ∈ l →
      configureAffinityLoop l affinity =
        match strings.Split value "=".data with
        | [k, v] => affinity.set k v
        | _ => affinity := by
  induction l with
  | nil => intro a value _ h; simp at h
  | cons kv t ih =>
    intro a value hnd hmem
    obtain ⟨k0, v0⟩ := kv
    simp only [List.map_cons, List.nodup_cons] at hnd
    rcases List.mem_cons.mp hmem with e | e
    · have hk : k0 = hostLabelKey := (Prod.mk.inj e).1.symm
      have hv : v0 = value := (Prod.mk.inj e).2.symm
      subst hv
      have hnot : hostLabelKey ∉ t.map Prod.fst := hk ▸ hnd.1
      have hk' : k0 = "io.rancher.scheduler.affinity:host_label".data := hk
      rw [configureAffinityLoop, if_pos hk']
      split
      · rw [configureAffinityLoop_of_not_mem t _ hnot]
      · rw [configureAffinityLoop_of_not_mem t _ hnot]
    · have hne : ¬ k0 = "io.rancher.scheduler.affinity:host_label".data := by
        intro e0
        apply hnd.1
        have : hostLabelKey ∈ t.map Prod.fst := List.mem_map_of_mem Prod.fst e
        rw [e0]
        exact this
      rw [configureAffinityLoop, if_neg hne]
      exact ih a value hnd.2 e

/-- C11: `configureAffinity` is a total function and, for every descriptor label map
(distinct keys): if the map holds the key `io.rancher.scheduler.affinity:host_label`
with a value `k=v` that has exactly one `=`, the node-selector map is exactly `{k: v}`;
if the key is absent, or its value has no `=` or more than one, the map is empty; so no
other label key contributes and the result has at most one entry. -/
theorem configureAffinity_spec (shortName : Str) (service : ServiceConfig)
    (hmap : (service.Labels.map Prod.fst).Nodup) :
    (∀ value k v : Str, (hostLabelKey, value) ∈ service.Labels →
      value = k ++ "=".data ++ v → '=' ∉ k → '=' ∉ v →
      configureAffinity shortName service = [(k, v)]) ∧
    (hostLabelKey ∉ service.Labels.map Prod.fst → configureAffinity shortName service = []) ∧
    (∀ value : Str, (hostLabelKey, value) ∈ service.Labels → value.count '=' ≠ 1 →
      configureAffinity shortName service = []) ∧
    (configureAffinity shortName service).length ≤ 1 := by
  have hc : "=".data = ['='] := rfl
  refine ⟨?_, ?_, ?_, ?_⟩
  · intro value k v hmem hval hk hv
    rw [configureAffinity, configureAffinityLoop_of_mem _ _ value hmap hmem, hval, hc]
    have : k ++ ['='] ++ v = k ++ '=' :: v := by simp
    rw [this, strings.split_singleton_pair '=' k v hk hv]
    rfl
  · intro h
    rw [configureAffinity, configureAffinityLoop_of_not_mem _ _ h]
  · intro value hmem hcount
    rw [configureAffinity, configureAffinityLoop_of_mem _ _ value hmap hmem, hc]
    have hlen := strings.split_singleton_length '=' value
    split
    · rename_i k v hsplit
      rw [hsplit] at hlen
      simp only [List.length_cons, List.length_nil] at hlen
      omega
    · rfl
  · by_cases h : hostLabelKey ∈ service.Labels.map Prod.fst
    · obtain ⟨⟨k0, value⟩, hmem, hk⟩ := List.mem_map.mp h
      simp only at hk
      subst hk
      rw [configureAffinity, configureAffinityLoop_of_mem _ _ value hmap hmem]
      split
      · simp [GoMap.set]
      · simp
    · rw [configureAffinity, configureAffinityLoop_of_not_mem _ _ h]
      simp

/-- C11, at a label map with the host-label key (value `disk=ssd`) and a longer key
that starts with the same text. -/
theorem configureAffinity_spec_witness :
    configureAffinity "web".data (serviceWithLabels
        [("io.rancher.scheduler.affinity:host_label_ne".data, "a=b".data),
         (hostLabelKey, "disk=ssd".data)]) = [("disk".data, "ssd".data)] :=
  (configureAffinity_spec "web".data (serviceWithLabels
      [("io.rancher.scheduler.affinity:host_label_ne".data, "a=b".data),
       (hostLabelKey, "disk=ssd".data)]) (by decide)).1
    "disk=ssd".data "disk".data "ssd".data (by decide) (by decide) (by decide) (by decide)

/-! ## The volume mapper -/

theorem strings.split_colon_parts (s : Str) (h : ':' ∈ s) :
    ∃ rest, strings.Split s ":".data = beforeColon s :: beforeColon (afterColon s) :: rest := by
  have hc : ":".data = [':'] := rfl
  obtain ⟨a, b, hab, hna⟩ := Str.split_at_first ':' s h
  have hall : ∀ x ∈ a, (fun x => decide (x ≠ ':')) x = true := by
    intro x hx
    have : x ≠ ':' := fun e => hna (e ▸ hx)
    simpa using this
  obtain ⟨rest, hrest⟩ := strings.split_singleton_head ':' b
  refine ⟨rest, ?_⟩
  have h1 : beforeColon s = a := by
    unfold beforeColon
    rw [hab, List.takeWhile_append_of_pos hall]
    simp [List.takeWhile_cons]
  have h2 : afterColon s = b := by rw [hab, afterColon_append a b hna]
  rw [hc, h1, h2, beforeColon, ← hrest, hab, strings.split_singleton_append ':' a b hna]

theorem strings.replace_slash (s : Str) :
    strings.Replace s "/".data "".data = removeSlashes s := by
  have hc : "/".data = ['/'] := rfl
  have hn : ¬ (['/'] : Str) = [] := by simp
  rw [strings.Replace, hc, if_neg hn]
  induction s with
  | nil => rfl
  | cons x t ih =>
    by_cases h : x = '/'
    · subst h
      simp [strings.replaceLoop, removeSlashes] at ih ⊢
      exact ih
    · have h' : ¬ '/' = x := fun e => h e.symm
      simp [strings.replaceLoop, removeSlashes, h, h'] at ih ⊢
      exact ih

theorem removeSlashes_no_slash (s : Str) : '/' ∉ removeSlashes s := by
  simp [removeSlashes]

theorem joinColon_singleton (p : Str) : joinColon [p] = p := by
  simp [joinColon, List.intercalate]

theorem joinColon_cons_cons (p q : Str) (rest : List Str) :
    joinColon (p :: q :: rest) = p ++ ':' :: joinColon (q :: rest) := by
  have hc : ":".data = [':'] := rfl
  simp [joinColon, List.intercalate, hc]

/-- Splitting at the colons gives back the parts of a colon-delimited string. -/
theorem strings.split_joinColon (parts : List Str) (hne : parts ≠ [])
    (hparts : ∀ p ∈ parts, ':' ∉ p) : strings.Split (joinColon parts) ":".data = parts := by
  have hc : ":".data = [':'] := rfl
  rw [hc]
  induction parts with
  | nil => exact absurd rfl hne
  | cons p rest ih =>
    cases rest with
    | nil =>
      rw [joinColon_singleton]
      exact strings.split_singleton_of_not_mem ':' p (hparts p (by simp))
    | cons q rest =>
      rw [joinColon_cons_cons, strings.split_singleton_append ':' p _ (hparts p (by simp)),
        ih (by simp) (fun x hx => hparts x (by simp [hx]))]

theorem readOnlyLoop_eq (opts : List Str) :
    ∀ b : Bool, readOnlyLoop opts b =
      match (opts.filter isModeFlag).getLast? with
      | some o => decide (o = "ro".data)
      | none => b := by
  induction opts with
  | nil => intro b; rfl
  | cons o rest ih =>
    intro b
    rw [readOnlyLoop]
    by_cases h1 : o = "ro".data
    · have hm : isModeFlag o = true := by simp [isModeFlag, h1]
      rw [if_pos h1, ih, List.filter_cons_of_pos hm]
      cases hf : List.filter isModeFlag rest with
      | nil => simp [h1]
      | cons x xs =>
        rw [List.getLast?_cons_cons, List.getLast?_eq_getLast (x :: xs) (by simp)]
    · by_cases h2 : o = "rw".data
      · have hm : isModeFlag o = true := by simp [isModeFlag, h2]
        rw [if_neg h1, if_pos h2, ih, List.filter_cons_of_pos hm]
        cases hf : List.filter isModeFlag rest with
        | nil => simp [h1]
        | cons x xs =>
        rw [List.getLast?_cons_cons, List.getLast?_eq_getLast (x :: xs) (by simp)]
      · have hm : ¬ isModeFlag o = true := by simp [isModeFlag, h1, h2]
        rw [if_neg h1, if_neg h2, ih, List.filter_cons_of_neg hm]

/-- The loop of `configureVolumes`: it stops at the first spec without a colon, with
the diagnostic for that spec, and otherwise appends one mount and one volume for each
spec, in order. -/
theorem configureVolumesLoop_eq (vols : List Str) :
    ∀ (volumemounts : List VolumeMount) (volumes : List Volume),
      configureVolumesLoop vols volumemounts volumes =
        match vols.find? (fun s => decide (':' ∉ s)) with
        | some bad =>
          .error ("Volumes without host path are not supported: ".data ++ fmtStrings [bad])
        | none =>
          .ok (volumemounts ++ vols.map mountOfSpec, volumes ++ vols.map volumeOfSpec) := by
  have hc : ":".data = [':'] := rfl
  induction vols with
  | nil => intro vm v; simp [configureVolumesLoop]
  | cons s rest ih =>
    intro vm v
    rw [configureVolumesLoop]
    by_cases h : ':' ∈ s
    · obtain ⟨opts, hsplit⟩ := strings.split_colon_parts s h
      have hfind : List.find? (fun s => decide (':' ∉ s)) (s :: rest) =
          List.find? (fun s => decide (':' ∉ s)) rest := by
        rw [List.find?_cons_of_neg]
        simpa using h
      simp only [hsplit, List.length_cons, hfind]
      rw [if_neg (by omega), ih]
      have hro : (if opts.length + 1 + 1 > 2 then readOnlyLoop opts false else false) =
          readOnlyLoop opts false := by
        by_cases ho : opts = []
        · subst ho; rfl
        · have : opts.length ≠ 0 := fun e => ho (List.length_eq_zero.mp e)
          rw [if_pos (by omega)]
      have hm : mountOfSpec s =
          { Name := removeSlashes (beforeColon s), ReadOnly := readOnlyLoop opts false,
            MountPath := beforeColon (afterColon s) } := by
        rw [mountOfSpec, hsplit]
        rfl
      rw [hro, strings.replace_slash]
      cases List.find? (fun s => decide (':' ∉ s)) rest with
      | some bad => rfl
      | none =>
        simp only [List.map_cons, hm, volumeOfSpec, List.append_assoc, List.singleton_append]
    · have hsplit : strings.Split s ":".data = [s] := by
        rw [hc]; exact strings.split_singleton_of_not_mem ':' s h
      have hfind : List.find? (fun s => decide (':' ∉ s)) (s :: rest) = some s := by
        rw [List.find?_cons_of_pos]
        simpa using h
      simp only [hsplit, hfind, List.length_singleton]
      rw [if_pos (by omega)]

theorem joinColon_mem_colon (h c : Str) (opts : List Str) : ':' ∈ joinColon (h :: c :: opts) := by
  rw [joinColon_cons_cons]
  simp

/-- The mount and the volume of a colon-delimited spec, in terms of its parts. -/
theorem mountOfSpec_joinColon (h c : Str) (opts : List Str)
    (hparts : ∀ p ∈ h :: c :: opts, ':' ∉ p) :
    mountOfSpec (joinColon (h :: c :: opts)) =
        { Name := removeSlashes h, ReadOnly := readOnlyLoop opts false, MountPath := c } ∧
      volumeOfSpec (joinColon (h :: c :: opts)) =
        { Name := removeSlashes h, VolumeSource := { HostPath := some { Path := h } } } := by
  obtain ⟨rest, hrest⟩ := strings.split_colon_parts _ (joinColon_mem_colon h c opts)
  have hsplit := strings.split_joinColon (h :: c :: opts) (by simp) hparts
  rw [hsplit] at hrest
  have h1 : h = beforeColon (joinColon (h :: c :: opts)) := by injection hrest
  have h2 : c = beforeColon (afterColon (joinColon (h :: c :: opts))) := by
    injection hrest with _ ht
    injection ht
  constructor
  · rw [mountOfSpec, hsplit, ← h1, ← h2]
    rfl
  · rw [volumeOfSpec, ← h1]

theorem configureVolumes_of_colons (service : ServiceConfig) (vols : List Str)
    (hv : service.Volumes = some vols) (hcolon : ∀ s ∈ vols, ':' ∈ s) :
    configureVolumes service = .ok (vols.map mountOfSpec, vols.map volumeOfSpec) := by
  have hfind : vols.find? (fun s => decide (':' ∉ s)) = none := by
    rw [List.find?_eq_none]
    intro s hs
    simpa using hcolon s hs
  rw [configureVolumes, hv]
  simp only []
  rw [configureVolumesLoop_eq, hfind]
  rfl

/-- C12: for a host path `h` and a container path `c` without colons, `configureVolumes`
maps the spec `h:c` to a read-write mount, `h:c:rw` to a read-write mount and `h:c:ro`
to a read-only mount. -/
theorem configureVolumes_mode (service : ServiceConfig) (h c : Str)
    (hh : ':' ∉ h) (hc : ':' ∉ c) :
    configureVolumes { service with Volumes := some [h ++ ":".data ++ c] } =
      .ok ([{ Name := removeSlashes h, ReadOnly := false, MountPath := c }],
        [{ Name := removeSlashes h, VolumeSource := { HostPath := some { Path := h } } }]) ∧
    configureVolumes { service with Volumes := some [h ++ ":".data ++ c ++ ":rw".data] } =
      .ok ([{ Name := removeSlashes h, ReadOnly := false, MountPath := c }],
        [{ Name := removeSlashes h, VolumeSource := { HostPath := some { Path := h } } }]) ∧
    configureVolumes { service with Volumes := some [h ++ ":".data ++ c ++ ":ro".data] } =
      .ok ([{ Name := removeSlashes h, ReadOnly := true, MountPath := c }],
        [{ Name := removeSlashes h, VolumeSource := { HostPath := some { Path := h } } }]) := by
  have e0 : h ++ ":".data ++ c = joinColon [h, c] := by
    rw [joinColon_cons_cons, joinColon_singleton]
    simp
  have e1 : h ++ ":".data ++ c ++ ":rw".data = joinColon [h, c, "rw".data] := by
    rw [joinColon_cons_cons, joinColon_cons_cons, joinColon_singleton]
    simp
  have e2 : h ++ ":".data ++ c ++ ":ro".data = joinColon [h, c, "ro".data] := by
    rw [joinColon_cons_cons, joinColon_cons_cons, joinColon_singleton]
    simp
  have key : ∀ opts : List Str, (∀ p ∈ opts, ':' ∉ p) →
      configureVolumes { service with Volumes := some [joinColon (h :: c :: opts)] } =
        .ok ([{ Name := removeSlashes h, ReadOnly := readOnlyLoop opts false, MountPath := c }],
          [{ Name := removeSlashes h, VolumeSource := { HostPath := some { Path := h } } }]) := by
    intro opts ho
    have hparts : ∀ p ∈ h :: c :: opts, ':' ∉ p := by
      intro p hp
      simp only [List.mem_cons] at hp
      rcases hp with e | e | e
      · rw [e]; exact hh
      · rw [e]; exact hc
      · exact ho p e
    obtain ⟨hm, hvol⟩ := mountOfSpec_joinColon h c opts hparts
    rw [configureVolumes_of_colons _ [joinColon (h :: c :: opts)] rfl
      (by intro s hs; rw [List.mem_singleton.mp hs]; exact joinColon_mem_colon h c opts)]
    simp only [List.map_cons, List.map_nil, hm, hvol]
  refine ⟨?_, ?_, ?_⟩
  · rw [e0]; exact key [] (by simp)
  · rw [e1]
    exact key ["rw".data] (by intro p hp; rw [List.mem_singleton.mp hp]; decide)
  · rw [e2]
    exact key ["ro".data] (by intro p hp; rw [List.mem_singleton.mp hp]; decide)

/-- C12, at the specs `/host:/container` and `/host:/container:ro`. -/
theorem configureVolumes_mode_witness :
    configureVolumes (serviceWithVolumes ["/host:/container".data]) =
      .ok ([{ Name := "host".data, ReadOnly := false, MountPath := "/container".data }],
        [{ Name := "host".data,
           VolumeSource := { HostPath := some { Path := "/host".data } } }]) ∧
    configureVolumes (serviceWithVolumes ["/host:/container:ro".data]) =
      .ok ([{ Name := "host".data, ReadOnly := true, MountPath := "/container".data }],
        [{ Name := "host".data,
           VolumeSource := { HostPath := some { Path := "/host".data } } }]) :=
  ⟨(configureVolumes_mode (serviceWithVolumes []) "/host".data "/container".data
      (by decide) (by decide)).1,
   (configureVolumes_mode (serviceWithVolumes []) "/host".data "/container".data
      (by decide) (by decide)).2.2⟩

theorem forall₂_map_right {α β : Type} (R : α → β → Prop) (f : α → β) (l : List α)
    (h : ∀ a ∈ l, R a (f a)) : List.Forall₂ R l (l.map f) := by
  induction l with
  | nil => exact List.Forall₂.nil
  | cons a t ih =>
    exact List.Forall₂.cons (h a (by simp)) (ih (fun x hx => h x (by simp [hx])))

theorem getElem?_append_cons_length {α : Type} (l₁ : List α) (x : α) (l₂ : List α) :
    (l₁ ++ x :: l₂)[l₁.length]? = some x := by
  induction l₁ with
  | nil => simp
  | cons a t ih => simpa using ih

/-- C13: for a list of `n` volume specs that each have a colon (at least two
colon-delimited parts), `configureVolumes` returns `n` mounts and `n` volumes in input
order; the i-th mount and the i-th volume have the same name, the host path of the
i-th spec without its slashes; the mount path is the second part of the spec and the
volume is backed by the host path, the unchanged first part. Nothing is deduplicated:
the names depend on the host paths only. -/
theorem configureVolumes_entries (service : ServiceConfig) (vols : List Str)
    (hv : service.Volumes = some vols) (hcolon : ∀ s ∈ vols, ':' ∈ s) :
    ∃ (mounts : List VolumeMount) (volumes : List Volume),
      configureVolumes service = .ok (mounts, volumes) ∧
      mounts.length = vols.length ∧ volumes.length = vols.length ∧
      mounts.map (fun m => m.Name) = volumes.map (fun v => v.Name) ∧
      List.Forall₂
        (fun s m => m.Name = removeSlashes (beforeColon s) ∧ '/' ∉ m.Name ∧
          m.MountPath = beforeColon (afterColon s))
        vols mounts ∧
      List.Forall₂
        (fun s v => v.Name = removeSlashes (beforeColon s) ∧
          v.VolumeSource = { HostPath := some { Path := beforeColon s } })
        vols volumes := by
  refine ⟨vols.map mountOfSpec, vols.map volumeOfSpec,
    configureVolumes_of_colons service vols hv hcolon, by simp, by simp, ?_, ?_, ?_⟩
  · simp [List.map_map, Function.comp_def, mountOfSpec, volumeOfSpec]
  · apply forall₂_map_right
    intro s _
    exact ⟨rfl, removeSlashes_no_slash _, rfl⟩
  · apply forall₂_map_right
    intro s _
    exact ⟨rfl, rfl⟩

/-- C13, at the specs `/a/b:/x` and `/ab:/y`, whose host paths differ only in slashes:
two mounts and two volumes, all named `ab`. -/
theorem configureVolumes_entries_witness :
    (∃ (mounts : List VolumeMount) (volumes : List Volume),
      configureVolumes (serviceWithVolumes ["/a/b:/x".data, "/ab:/y".data]) =
        .ok (mounts, volumes) ∧
      mounts.length = 2 ∧ volumes.length = 2 ∧
      mounts.map (fun m => m.Name) = volumes.map (fun v => v.Name)) ∧
    configureVolumes (serviceWithVolumes ["/a/b:/x".data, "/ab:/y".data]) =
      .ok ([{ Name := "ab".data, ReadOnly := false, MountPath := "/x".data },
            { Name := "ab".data, ReadOnly := false, MountPath := "/y".data }],
        [{ Name := "ab".data, VolumeSource := { HostPath := some { Path := "/a/b".data } } },
         { Name := "ab".data, VolumeSource := { HostPath := some { Path := "/ab".data } } }]) := by
  obtain ⟨mounts, volumes, h1, h2, h3, h4, _, _⟩ :=
    configureVolumes_entries (serviceWithVolumes ["/a/b:/x".data, "/ab:/y".data])
      ["/a/b:/x".data, "/ab:/y".data] rfl (by decide)
  exact ⟨⟨mounts, volumes, h1, h2, h3, h4⟩, by decide⟩

/-- C14: `configureVolumes` ends fatally if and only if some volume spec of the list,
at any position, has no colon, that is fewer than two colon-delimited parts; the
diagnostic then names the first such spec. Without a volumes section, or with an empty
list, it succeeds with empty mount and volume lists. -/
theorem configureVolumes_fails_iff (service : ServiceConfig) :
    ((∃ msg, configureVolumes service = .error msg) ↔
      ∃ vols, service.Volumes = some vols ∧ ∃ s ∈ vols, ':' ∉ s) ∧
    (∀ msg, configureVolumes service = .error msg →
      ∃ vols bad, service.Volumes = some vols ∧
        vols.find? (fun s => decide (':' ∉ s)) = some bad ∧
        msg = "Volumes without host path are not supported: ".data ++ fmtStrings [bad]) ∧
    (∀ s : Str, ':' ∉ s ↔ (strings.Split s ":".data).length < 2) ∧
    (service.Volumes = none → configureVolumes service = .ok ([], [])) ∧
    (service.Volumes = some [] → configureVolumes service = .ok ([], [])) := by
  have hc : ":".data = [':'] := rfl
  have herr : ∀ msg, configureVolumes service = .error msg →
      ∃ vols bad, service.Volumes = some vols ∧
        vols.find? (fun s => decide (':' ∉ s)) = some bad ∧
        msg = "Volumes without host path are not supported: ".data ++ fmtStrings [bad] := by
    intro msg h
    rw [configureVolumes] at h
    cases hv : service.Volumes with
    | none => rw [hv] at h; cases h
    | some vols =>
      rw [hv] at h
      simp only [] at h
      rw [configureVolumesLoop_eq] at h
      cases hf : vols.find? (fun s => decide (':' ∉ s)) with
      | none => rw [hf] at h; cases h
      | some bad =>
        rw [hf] at h
        simp only [] at h
        injection h with h'
        exact ⟨vols, bad, rfl, hf, h'.symm⟩
  refine ⟨⟨?_, ?_⟩, herr, ?_, ?_, ?_⟩
  · rintro ⟨msg, h⟩
    obtain ⟨vols, bad, hv, hf, _⟩ := herr msg h
    refine ⟨vols, hv, bad, List.mem_of_find?_eq_some hf, ?_⟩
    have := List.find?_some hf
    simpa using this
  · rintro ⟨vols, hv, s, hs, hns⟩
    rw [configureVolumes, hv]
    simp only []
    rw [configureVolumesLoop_eq]
    cases hf : vols.find? (fun s => decide (':' ∉ s)) with
    | none =>
      exfalso
      rw [List.find?_eq_none] at hf
      have := hf s hs
      simp at this
      exact hns this
    | some bad => exact ⟨_, rfl⟩
  · intro s
    rw [hc, strings.split_singleton_length]
    constructor
    · intro h
      rw [List.count_eq_zero_of_not_mem h]
      omega
    · intro h hm
      have := List.count_pos_iff.mpr hm
      omega
  · intro h
    rw [configureVolumes, h]
  · intro h
    rw [configureVolumes, h]
    rfl

/-- The spec `/nouser` after two valid specs: the run is fatal. -/
theorem configureVolumes_fails_example :
    configureVolumes (serviceWithVolumes
        ["/host:/container".data, "/data:/data:ro".data, "/nouser".data]) =
      .error "Volumes without host path are not supported: [/nouser]".data := by
  decide

/-- C20: a volume spec with three or more colon-delimited parts `h:c:opts` is never
rejected, whatever its options are and wherever it stands in a list of specs that all
have a colon: its mount is named after the host path `h`, mounted at `c`, and read-only
exactly when the last option equal to `ro` or `rw` is `ro`; the other options are
ignored. Its volume is backed by `h`. -/
theorem configureVolumes_mode_flags (service : ServiceConfig) (before after : List Str)
    (h c : Str) (opts : List Str)
    (hparts : ∀ p ∈ h :: c :: opts, ':' ∉ p)
    (hbefore : ∀ s ∈ before, ':' ∈ s) (hafter : ∀ s ∈ after, ':' ∈ s)
    (hv : service.Volumes = some (before ++ joinColon (h :: c :: opts) :: after)) :
    ∃ (mounts : List VolumeMount) (volumes : List Volume),
      configureVolumes service = .ok (mounts, volumes) ∧
      mounts[before.length]? = some
        { Name := removeSlashes h
          ReadOnly := decide ((opts.filter isModeFlag).getLast? = some "ro".data)
          MountPath := c } ∧
      volumes[before.length]? = some
        { Name := removeSlashes h, VolumeSource := { HostPath := some { Path := h } } } := by
  obtain ⟨hm, hvol⟩ := mountOfSpec_joinColon h c opts hparts
  have hcolon : ∀ s ∈ before ++ joinColon (h :: c :: opts) :: after, ':' ∈ s := by
    intro s hs
    simp only [List.mem_append, List.mem_cons] at hs
    rcases hs with e | e | e
    · exact hbefore s e
    · rw [e]; exact joinColon_mem_colon h c opts
    · exact hafter s e
  have hro : readOnlyLoop opts false =
      decide ((opts.filter isModeFlag).getLast? = some "ro".data) := by
    rw [readOnlyLoop_eq]
    cases (opts.filter isModeFlag).getLast? with
    | none => simp
    | some o => simp
  refine ⟨_, _, configureVolumes_of_colons service _ hv hcolon, ?_, ?_⟩
  · rw [List.map_append, List.map_cons, hm, hro]
    have := getElem?_append_cons_length (before.map mountOfSpec)
      { Name := removeSlashes h
        ReadOnly := decide ((opts.filter isModeFlag).getLast? = some "ro".data)
        MountPath := c } (after.map mountOfSpec)
    rw [List.length_map] at this
    exact this
  · rw [List.map_append, List.map_cons, hvol]
    have := getElem?_append_cons_length (before.map volumeOfSpec)
      { Name := removeSlashes h, VolumeSource := { HostPath := some { Path := h } } }
      (after.map volumeOfSpec)
    rw [List.length_map] at this
    exact this

/-- C20, at the specs `/h:/c:z` (read-write) and `/h:/c:ro:rw` (read-write), each after
an ordinary spec. -/
theorem configureVolumes_mode_flags_witness :
    (∃ (mounts : List VolumeMount) (volumes : List Volume),
      configureVolumes (serviceWithVolumes ["/a:/b".data, "/h:/c:z".data]) =
        .ok (mounts, volumes) ∧
      mounts[1]? = some { Name := "h".data, ReadOnly := false, MountPath := "/c".data } ∧
      volumes[1]? = some
        { Name := "h".data, VolumeSource := { HostPath := some { Path := "/h".data } } }) ∧
    (∃ (mounts : List VolumeMount) (volumes : List Volume),
      configureVolumes (serviceWithVolumes ["/a:/b".data, "/h:/c:ro:rw".data]) =
        .ok (mounts, volumes) ∧
      mounts[1]? = some { Name := "h".data, ReadOnly := false, MountPath := "/c".data } ∧
      volumes[1]? = some
        { Name := "h".data, VolumeSource := { HostPath := some { Path := "/h".data } } }) :=
  ⟨configureVolumes_mode_flags (serviceWithVolumes ["/a:/b".data, "/h:/c:z".data])
      ["/a:/b".data] [] "/h".data "/c".data ["z".data]
      (by decide) (by decide) (by simp) rfl,
   configureVolumes_mode_flags (serviceWithVolumes ["/a:/b".data, "/h:/c:ro:rw".data])
      ["/a:/b".data] [] "/h".data "/c".data ["ro".data, "rw".data]
      (by decide) (by decide) (by simp) rfl⟩

/-! ## Name normalization and the composed controller -/

theorem utf8Bytes_ascii (name : Str) (h : ∀ c ∈ name, c.toNat < 128) :
    utf8Bytes name = name := by
  induction name with
  | nil => rfl
  | cons c t ih =>
    have hc : c.toNat < 128 := h c (by simp)
    have ht : utf8Bytes t = t := ih (fun x hx => h x (by simp [hx]))
    have he : utf8EncodeChar c = [c] := by
      simp [utf8EncodeChar, hc, Char.ofNat_toNat]
    have hcons : utf8Bytes (c :: t) = utf8EncodeChar c ++ utf8Bytes t := by
      simp [utf8Bytes]
    rw [hcons, he, ht]
    rfl

/-- C15 fails as stated, for characters that take more than one byte. The name of 13
letters e-acute (13 characters, 26 bytes) is cut to its first 24 bytes, the 12 letters
e-acute, although it has fewer than 24 characters; and the name `a` followed by 12
letters e-acute (13 characters, 25 bytes) is cut in the middle of its last character:
the short name ends with the byte 195 and is the bytes of no string of characters. -/
theorem shortNameOf_characters_counterexample :
    ((List.replicate 13 (Char.ofNat 233)).length = 13 ∧
      (utf8Bytes (List.replicate 13 (Char.ofNat 233))).length = 26 ∧
      shortNameOf (utf8Bytes (List.replicate 13 (Char.ofNat 233))) =
        utf8Bytes (List.replicate 12 (Char.ofNat 233)) ∧
      shortNameOf (utf8Bytes (List.replicate 13 (Char.ofNat 233))) ≠
        utf8Bytes (List.replicate 13 (Char.ofNat 233))) ∧
    (('a' :: List.replicate 12 (Char.ofNat 233)).length = 13 ∧
      (utf8Bytes ('a' :: List.replicate 12 (Char.ofNat 233))).length = 25 ∧
      shortNameOf (utf8Bytes ('a' :: List.replicate 12 (Char.ofNat 233))) =
        utf8Bytes ('a' :: List.replicate 11 (Char.ofNat 233)) ++ [Char.ofNat 195] ∧
      shortNameOf (utf8Bytes ('a' :: List.replicate 12 (Char.ofNat 233))) ≠
        utf8Bytes ('a' :: List.replicate 11 (Char.ofNat 233)) ∧
      shortNameOf (utf8Bytes ('a' :: List.replicate 12 (Char.ofNat 233))) ≠
        utf8Bytes ('a' :: List.replicate 12 (Char.ofNat 233))) := by
  decide

/-- C15, amended: with a service name taken as the list of its bytes, the short name
is the first 24 bytes of the name; a name of more than 24 bytes is cut to exactly 24
bytes, a name of at most 24 bytes is unchanged, the short name is a prefix of the name,
and normalizing a short name again leaves it unchanged. A name of ASCII characters is
its own list of bytes, so for such a name bytes are characters. -/
theorem shortNameOf_spec (name : Str) :
    shortNameOf name = name.take 24 ∧
    (name.length > 24 → (shortNameOf name).length = 24) ∧
    (name.length ≤ 24 → shortNameOf name = name) ∧
    shortNameOf name <+: name ∧
    shortNameOf (shortNameOf name) = shortNameOf name ∧
    ((∀ c ∈ name, c.toNat < 128) → utf8Bytes name = name) := by
  have htake : shortNameOf name = name.take 24 := by
    unfold shortNameOf
    by_cases h : name.length > 24
    · rw [if_pos h]
    · rw [if_neg h, List.take_of_length_le (by omega)]
  have hlen : (shortNameOf name).length ≤ 24 := by
    rw [htake, List.length_take]
    omega
  refine ⟨htake, ?_, ?_, ?_, ?_, utf8Bytes_ascii name⟩
  · intro h
    rw [htake, List.length_take]
    omega
  · intro h
    rw [shortNameOf, if_neg (by omega)]
  · rw [htake]
    exact List.take_prefix 24 name
  · rw [shortNameOf, if_neg (by omega)]

/-- C15, amended, at a name of 28 ASCII characters and at the name `web`. -/
theorem shortNameOf_spec_witness :
    shortNameOf "averyveryverylongservicename".data = "averyveryverylongservice".data ∧
    (shortNameOf "averyveryverylongservicename".data).length = 24 ∧
    shortNameOf "web".data = "web".data ∧
    utf8Bytes "averyveryverylongservicename".data = "averyveryverylongservicename".data :=
  ⟨by decide, (shortNameOf_spec "averyveryverylongservicename".data).2.1 (by decide),
   (shortNameOf_spec "web".data).2.2.1 (by decide),
   (shortNameOf_spec "averyveryverylongservicename".data).2.2.2.2.2 (by decide)⟩

/-- The fields of the controller built by a successful call of
`createReplicationController`. -/
theorem createReplicationController_fields_aux (env : Env) (name shortName : Str)
    (service : ServiceConfig) (rc : ReplicationController)
    (h : createReplicationController env name shortName service = .ok rc) :
    rc.TypeMeta.Kind = "ReplicationController".data ∧
    rc.TypeMeta.APIVersion = "v1".data ∧
    rc.ObjectMeta.Name = shortName ∧
    rc.ObjectMeta.Labels = [("service".data, shortName)] ∧
    ∃ (ports : List ContainerPort) (envs : List EnvVar) (volumemounts : List VolumeMount)
      (volumes : List Volume) (restartPolicy : RestartPolicy) (probe : Probe),
      configurePorts name service = .ok ports ∧
      configureVariables env service = .ok envs ∧
      configureVolumes service = .ok (volumemounts, volumes) ∧
      configureRestartPolicy name service = .ok restartPolicy ∧
      rc.Spec.Template.Spec.Containers =
        [{ Name := shortName
           Image := service.Image
           Args := service.Command
           Command := service.Entrypoint
           Ports := ports
           Env := envs
           ReadinessProbe := probe
           VolumeMounts := volumemounts }] ∧
      rc.Spec.Template.Spec.Volumes = volumes ∧
      rc.Spec.Template.Spec.NodeSelector = configureAffinity shortName service ∧
      rc.Spec.Template.Spec.RestartPolicy = restartPolicy := by
  unfold createReplicationController at h
  simp only [bind, Except.bind, pure, Except.pure] at h
  rcases h1 : env.configureScale name with e | replicas
  · rw [h1] at h; cases h
  rcases h2 : configurePorts name service with e | ports
  · rw [h1, h2] at h; cases h
  rcases h3 : configureVariables env service with e | envs
  · rw [h1, h2, h3] at h; cases h
  rcases h4 : env.configureHealthCheck name with e | probe
  · rw [h1, h2, h3, h4] at h; cases h
  rcases h5 : configureRestartPolicy name service with e | restartPolicy
  · rw [h1, h2, h3, h4, h5] at h; cases h
  rcases h6 : configureVolumes service with e | ⟨volumemounts, volumes⟩
  · rw [h1, h2, h3, h4, h5, h6] at h; cases h
  rw [h1, h2, h3, h4, h5, h6] at h
  simp only [] at h
  injection h with h
  subst h
  exact ⟨rfl, rfl, rfl, rfl, ports, envs, volumemounts, volumes, restartPolicy, probe,
    rfl, rfl, rfl, rfl, rfl, rfl, rfl, rfl⟩

/-- C16: whenever `createReplicationController` succeeds, the controller has kind
`ReplicationController`, apiVersion `v1`, the name `shortName`, the labels
`{"service": shortName}`, and a pod template with exactly one container, named
`shortName`, with the image, the command list as `Args` and the entrypoint list as
`Command` of the descriptor, the ports of `configurePorts`, the environment of
`configureVariables` and the mounts of `configureVolumes`; the volumes of the pod are
those of `configureVolumes`, its node selector is the result of `configureAffinity`
and its restart policy the result of `configureRestartPolicy`. -/
theorem createReplicationController_fields (env : Env) (name shortName : Str)
    (service : ServiceConfig) (rc : ReplicationController)
    (h : createReplicationController env name shortName service = .ok rc) :
    rc.TypeMeta.Kind = "ReplicationController".data ∧
    rc.TypeMeta.APIVersion = "v1".data ∧
    rc.ObjectMeta.Name = shortName ∧
    rc.ObjectMeta.Labels = [("service".data, shortName)] ∧
    ∃ (ports : List ContainerPort) (envs : List EnvVar) (volumemounts : List VolumeMount)
      (volumes : List Volume) (restartPolicy : RestartPolicy) (probe : Probe),
      configurePorts name service = .ok ports ∧
      configureVariables env service = .ok envs ∧
      configureVolumes service = .ok (volumemounts, volumes) ∧
      configureRestartPolicy name service = .ok restartPolicy ∧
      rc.Spec.Template.Spec.Containers =
        [{ Name := shortName
           Image := service.Image
           Args := service.Command
           Command := service.Entrypoint
           Ports := ports
           Env := envs
           ReadinessProbe := probe
           VolumeMounts := volumemounts }] ∧
      rc.Spec.Template.Spec.Volumes = volumes ∧
      rc.Spec.Template.Spec.NodeSelector = configureAffinity shortName service ∧
      rc.Spec.Template.Spec.RestartPolicy = restartPolicy :=
  createReplicationController_fields_aux env name shortName service rc h

/-- C16, at the service `web` with image `nginx`, port `80:8080` and restart `always`:
the call succeeds and the controller has one container named `web`. -/
theorem createReplicationController_fields_witness :
    ∃ rc, createReplicationController (envWith false "default".data) "web".data "web".data
        { serviceWithPorts ["80:8080".data] with
          Image := "nginx".data, Restart := "always".data } = .ok rc ∧
      rc.TypeMeta.Kind = "ReplicationController".data ∧
      rc.ObjectMeta.Name = "web".data ∧
      (rc.Spec.Template.Spec.Containers.map (fun c => (c.Name, c.Image, c.Ports))) =
        [("web".data, "nginx".data, [{ ContainerPort := 8080 }])] := by
  refine ⟨_, rfl, ?_⟩
  have h := createReplicationController_fields (envWith false "default".data) "web".data
    "web".data { serviceWithPorts ["80:8080".data] with
      Image := "nginx".data, Restart := "always".data } _ rfl
  exact ⟨h.1, h.2.2.1, by decide⟩

/-! ## The run over the services -/

theorem fileName_eq (shortName kind ext : Str) :
    shortName ++ "-".data ++ kind ++ ('.' :: ext) =
      shortName ++ ('-' :: (kind ++ ".".data)) ++ ext := by
  have h1 : "-".data = ['-'] := rfl
  have h2 : ".".data = ['.'] := rfl
  rw [h1, h2]
  simp

/-- A call of `writeFile` that does not end fatally writes one file, at the path of the
short name, the suffix and the extension of the format, and prints that path. -/
theorem writeFile_ok {R S : Type} (x : Externals R S) (shortName sufix : Str)
    (object : Object S) (w w' : World) (u : Unit)
    (h : writeFile x shortName sufix object w = (w', .ok u)) :
    ∃ data, w' =
      { files := w.files ++
          [(x.filepathJoin x.outputDir
              (shortName ++ ('-' :: (sufix ++ ".".data)) ++ fileExtension x), data)]
        stdout := w.stdout ++
          [x.filepathJoin x.outputDir
              (shortName ++ ('-' :: (sufix ++ ".".data)) ++ fileExtension x)] } := by
  unfold writeFile at h
  rcases hj : x.jsonMarshalIndent object with err | data
  · rw [hj] at h
    cases h
  rw [hj] at h
  simp only [] at h
  by_cases hjson : x.asJSON = true
  · rw [if_pos hjson] at h
    have hext : fileExtension x = "json".data := by rw [fileExtension, if_pos hjson]
    have hname : shortName ++ "-".data ++ sufix ++ ".json".data =
        shortName ++ ('-' :: (sufix ++ ".".data)) ++ fileExtension x := by
      rw [hext]
      exact fileName_eq shortName sufix "json".data
    rw [hname] at h
    cases hw : x.ioutilWriteFile
        (x.filepathJoin x.outputDir
          (shortName ++ ('-' :: (sufix ++ ".".data)) ++ fileExtension x)) data with
    | some err => rw [hw] at h; cases h
    | none =>
      rw [hw] at h
      simp only [] at h
      injection h with h1 _
      exact ⟨data, h1.symm⟩
  · rw [if_neg hjson] at h
    have hext : fileExtension x = "yml".data := by rw [fileExtension, if_neg hjson]
    rcases hy : x.yamlMarshal data with err | text
    · rw [hy] at h
      cases h
    rw [hy] at h
    simp only [] at h
    have hname : shortName ++ "-".data ++ sufix ++ ".yml".data =
        shortName ++ ('-' :: (sufix ++ ".".data)) ++ fileExtension x := by
      rw [hext]
      exact fileName_eq shortName sufix "yml".data
    rw [hname] at h
    cases hw : x.ioutilWriteFile
        (x.filepathJoin x.outputDir
          (shortName ++ ('-' :: (sufix ++ ".".data)) ++ fileExtension x))
        (fixDisplayText text) with
    | some err => rw [hw] at h; cases h
    | none =>
      rw [hw] at h
      simp only [] at h
      injection h with h1 _
      exact ⟨fixDisplayText text, h1.symm⟩

/-- The body of the loop for one service, when it does not end fatally: two files are
written and their paths printed, the controller file first. -/
theorem processService_ok {R S : Type} (x : Externals R S) (dockerCompose : Project)
    (name : Str) (r r' : R) (w w' : World)
    (h : processService x dockerCompose name r w = (w', .ok r')) :
    w'.files.map Prod.fst = w.files.map Prod.fst ++ servicePaths x name ∧
    w'.stdout = w.stdout ++ servicePaths x name := by
  unfold processService at h
  cases hg : dockerCompose.Get name with
  | none => rw [hg] at h; cases h
  | some service =>
    rw [hg] at h
    simp only [] at h
    rcases hrc : createReplicationController (x.env r) name (shortNameOf name) service
      with e | rc
    · rw [hrc] at h; cases h
    rw [hrc] at h
    simp only [] at h
    rcases hcl : x.cleanServices name r with e | r1
    · rw [hcl] at h; cases h
    rw [hcl] at h
    simp only [] at h
    rcases hw1 : writeFile x (shortNameOf name) "rc".data (Object.controller rc) w
      with ⟨w1, res1⟩
    rw [hw1] at h
    rcases res1 with e | u1
    · cases h
    simp only [] at h
    rcases hsrv : x.createService (shortNameOf name) service rc with e | srv
    · rw [hsrv] at h; cases h
    rw [hsrv] at h
    simp only [] at h
    rcases hw2 : writeFile x (shortNameOf name) "srv".data (Object.companion srv) w1
      with ⟨w2, res2⟩
    rw [hw2] at h
    rcases res2 with e | u2
    · cases h
    simp only [] at h
    injection h with hw _
    subst hw
    obtain ⟨d1, e1⟩ := writeFile_ok x _ _ _ _ _ _ hw1
    obtain ⟨d2, e2⟩ := writeFile_ok x _ _ _ _ _ _ hw2
    rw [e2, e1]
    simp [servicePaths]

/-- The loop over a list of names, when it does not end fatally. -/
theorem processDockerComposeLoop_ok {R S : Type} (x : Externals R S) (dockerCompose : Project)
    (names : List Str) :
    ∀ (r r' : R) (w w' : World),
      processDockerComposeLoop x dockerCompose names r w = (w', .ok r') →
      w'.files.map Prod.fst = w.files.map Prod.fst ++ (names.map (servicePaths x)).flatten ∧
      w'.stdout = w.stdout ++ (names.map (servicePaths x)).flatten := by
  induction names with
  | nil =>
    intro r r' w w' h
    rw [processDockerComposeLoop] at h
    injection h with h1 _
    subst h1
    simp
  | cons name rest ih =>
    intro r r' w w' h
    rw [processDockerComposeLoop] at h
    rcases hs : processService x dockerCompose name r w with ⟨w1, res⟩
    rw [hs] at h
    rcases res with e | r1
    · cases h
    simp only [] at h
    obtain ⟨a1, a2⟩ := processService_ok x dockerCompose name r r1 w w1 hs
    obtain ⟨b1, b2⟩ := ih r1 r' w1 w' h
    rw [b1, b2, a1, a2]
    simp [List.append_assoc]

/-- The loop continues after a list of names that it gets through. -/
theorem processDockerComposeLoop_append {R S : Type} (x : Externals R S)
    (dockerCompose : Project) (pre rest : List Str) :
    ∀ (r r1 : R) (w w1 : World),
      processDockerComposeLoop x dockerCompose pre r w = (w1, .ok r1) →
      processDockerComposeLoop x dockerCompose (pre ++ rest) r w =
        processDockerComposeLoop x dockerCompose rest r1 w1 := by
  induction pre with
  | nil =>
    intro r r1 w w1 h
    rw [processDockerComposeLoop] at h
    injection h with h1 h2
    injection h2 with h2
    subst h1
    subst h2
    rfl
  | cons name pre ih =>
    intro r r1 w w1 h
    rw [processDockerComposeLoop] at h
    rw [List.cons_append, processDockerComposeLoop]
    rcases hs : processService x dockerCompose name r w with ⟨w0, res⟩
    rw [hs] at h
    rcases res with e | r0
    · cases h
    simp only [] at h ⊢
    exact ih r0 r1 w0 w1 h

/-- A field mapping that fails makes `createReplicationController` fail. -/
theorem createReplicationController_error (env : Env) (name shortName : Str)
    (service : ServiceConfig)
    (hfail : (∃ e, configurePorts name service = .error e) ∨
      (∃ e, configureRestartPolicy name service = .error e) ∨
      (∃ e, configureVolumes service = .error e)) :
    ∃ e, createReplicationController env name shortName service = .error e := by
  rcases hrc : createReplicationController env name shortName service with e | rc
  · exact ⟨e, rfl⟩
  · exfalso
    obtain ⟨_, _, _, _, ports, envs, vm, vols, rp, probe, h1, _, h3, h4, _⟩ :=
      createReplicationController_fields_aux env name shortName service rc hrc
    rcases hfail with ⟨e, he⟩ | ⟨e, he⟩ | ⟨e, he⟩
    · rw [h1] at he; cases he
    · rw [h4] at he; cases he
    · rw [h3] at he; cases he

/-- The body of the loop for one service, when it does not end fatally, appends two
writes to the files of the world, at the two paths of the service. -/
theorem processService_writes {R S : Type} (x : Externals R S) (dockerCompose : Project)
    (name : Str) (r r' : R) (w w' : World)
    (h : processService x dockerCompose name r w = (w', .ok r')) :
    ∃ writes : List (Str × Str),
      w'.files = w.files ++ writes ∧ writes.map Prod.fst = servicePaths x name := by
  unfold processService at h
  cases hg : dockerCompose.Get name with
  | none => rw [hg] at h; cases h
  | some service =>
    rw [hg] at h
    simp only [] at h
    rcases hrc : createReplicationController (x.env r) name (shortNameOf name) service
      with e | rc
    · rw [hrc] at h; cases h
    rw [hrc] at h
    simp only [] at h
    rcases hcl : x.cleanServices name r with e | r1
    · rw [hcl] at h; cases h
    rw [hcl] at h
    simp only [] at h
    rcases hw1 : writeFile x (shortNameOf name) "rc".data (Object.controller rc) w
      with ⟨w1, res1⟩
    rw [hw1] at h
    rcases res1 with e | u1
    · cases h
    simp only [] at h
    rcases hsrv : x.createService (shortNameOf name) service rc with e | srv
    · rw [hsrv] at h; cases h
    rw [hsrv] at h
    simp only [] at h
    rcases hw2 : writeFile x (shortNameOf name) "srv".data (Object.companion srv) w1
      with ⟨w2, res2⟩
    rw [hw2] at h
    rcases res2 with e | u2
    · cases h
    simp only [] at h
    injection h with hw _
    subst hw
    obtain ⟨d1, e1⟩ := writeFile_ok x _ _ _ _ _ _ hw1
    obtain ⟨d2, e2⟩ := writeFile_ok x _ _ _ _ _ _ hw2
    refine ⟨[(x.filepathJoin x.outputDir
        (shortNameOf name ++ ('-' :: ("rc".data ++ ".".data)) ++ fileExtension x), d1),
      (x.filepathJoin x.outputDir
        (shortNameOf name ++ ('-' :: ("srv".data ++ ".".data)) ++ fileExtension x), d2)],
      ?_, ?_⟩
    · rw [e2, e1]
      simp
    · rfl

/-- The loop over a list of names, when it does not end fatally, appends the writes of
the services, in order. -/
theorem processDockerComposeLoop_writes {R S : Type} (x : Externals R S)
    (dockerCompose : Project) (names : List Str) :
    ∀ (r r' : R) (w w' : World),
      processDockerComposeLoop x dockerCompose names r w = (w', .ok r') →
      ∃ writes : List (Str × Str),
        w'.files = w.files ++ writes ∧
        writes.map Prod.fst = (names.map (servicePaths x)).flatten := by
  induction names with
  | nil =>
    intro r r' w w' h
    rw [processDockerComposeLoop] at h
    injection h with h1 _
    subst h1
    exact ⟨[], by simp, rfl⟩
  | cons name rest ih =>
    intro r r' w w' h
    rw [processDockerComposeLoop] at h
    rcases hs : processService x dockerCompose name r w with ⟨w1, res⟩
    rw [hs] at h
    rcases res with e | r1
    · cases h
    simp only [] at h
    obtain ⟨ws1, a1, a2⟩ := processService_writes x dockerCompose name r r1 w w1 hs
    obtain ⟨ws2, b1, b2⟩ := ih r1 r' w1 w' h
    refine ⟨ws1 ++ ws2, ?_, ?_⟩
    · rw [b1, a1, List.append_assoc]
    · rw [List.map_append, a2, b2]
      simp

/-- After writes at pairwise distinct paths, each of these files holds what was written
to it, and every other file is as it was before. -/
theorem contents_after_writes (old writes : List (Str × Str))
    (hnd : (writes.map Prod.fst).Nodup) :
    (∀ p d, (p, d) ∈ writes → List.lookup p (old ++ writes).reverse = some d) ∧
    (∀ p, p ∉ writes.map Prod.fst →
      List.lookup p (old ++ writes).reverse = List.lookup p old.reverse) := by
  have hrev : ((writes.reverse).map Prod.fst).Nodup := by
    rw [List.map_reverse]
    exact List.nodup_reverse.mpr hnd
  constructor
  · intro p d hmem
    have h1 : List.lookup p writes.reverse = some d :=
      (lookup_eq_some_of_mem _ hrev p d).mpr (List.mem_reverse.mpr hmem)
    rw [List.reverse_append, List.lookup_append, h1]
    rfl
  · intro p hp
    have h1 : List.lookup p writes.reverse = none := by
      apply lookup_eq_none_of_not_mem
      rw [List.map_reverse]
      intro hm
      exact hp (List.mem_reverse.mp hm)
    rw [List.reverse_append, List.lookup_append, h1]
    rfl

/-- C17: in a run of `processDockerCompose` over the services `n1, ..., nk` (the order
of `Keys()`) in which no step fails, the paths of the files written during the run,
which are also the paths printed, are in order
`short(n1)-rc.E, short(n1)-srv.E, ..., short(nk)-rc.E, short(nk)-srv.E`, each joined to
the output directory, where `short` is the name normalization and `E` is `json` in the
machine-readable format and `yml` otherwise. -/
theorem processDockerCompose_paths {R S : Type} (x : Externals R S) (dockerCompose : Project)
    (r r' : R) (w w' : World)
    (h : processDockerCompose x dockerCompose r w = (w', .ok r')) :
    w'.files.map Prod.fst =
      w.files.map Prod.fst ++ (dockerCompose.Keys.map (servicePaths x)).flatten ∧
    w'.stdout = w.stdout ++ (dockerCompose.Keys.map (servicePaths x)).flatten ∧
    (∀ name, servicePaths x name =
      [x.filepathJoin x.outputDir
          (shortNameOf name ++ "-rc.".data ++ (if x.asJSON = true then "json".data else "yml".data)),
       x.filepathJoin x.outputDir
          (shortNameOf name ++ "-srv.".data ++
            (if x.asJSON = true then "json".data else "yml".data))]) := by
  obtain ⟨h1, h2⟩ := processDockerComposeLoop_ok x dockerCompose dockerCompose.Keys r r' w w' h
  exact ⟨h1, h2, fun _ => rfl⟩

/-- C17, at the services `web` and `averyveryverylongservicename` in the display
format. -/
theorem processDockerCompose_paths_witness :
    (processDockerCompose (externalsWith false [])
        (projectOf [("web".data, serviceWithPorts ["80:8080".data]),
          ("averyveryverylongservicename".data, serviceWithPorts [])])
        () World.empty).1.stdout =
      ["output/web-rc.yml".data, "output/web-srv.yml".data,
       "output/averyveryverylongservice-rc.yml".data,
       "output/averyveryverylongservice-srv.yml".data] ∧
    ((processDockerCompose (externalsWith false [])
        (projectOf [("web".data, serviceWithPorts ["80:8080".data]),
          ("averyveryverylongservicename".data, serviceWithPorts [])])
        () World.empty).1.files.map Prod.fst) =
      ["output/web-rc.yml".data, "output/web-srv.yml".data,
       "output/averyveryverylongservice-rc.yml".data,
       "output/averyveryverylongservice-srv.yml".data] := by
  obtain ⟨h1, h2, _⟩ := processDockerCompose_paths (externalsWith false [])
    (projectOf [("web".data, serviceWithPorts ["80:8080".data]),
      ("averyveryverylongservicename".data, serviceWithPorts [])])
    () () World.empty
    (processDockerCompose (externalsWith false [])
      (projectOf [("web".data, serviceWithPorts ["80:8080".data]),
        ("averyveryverylongservicename".data, serviceWithPorts [])])
      () World.empty).1
    (by decide)
  exact ⟨h2.trans (by decide), h1.trans (by decide)⟩

/-- C18 fails as stated. (1) With the services `web` (well formed) and `db` (port
`x`), `db` is the first service whose field mapping fails, but when the write of
`web-rc.json` fails the run ends there, and none of the two files of `web` has been
written. (2) With two well-formed services whose names share their first 24 bytes
(images `nginx` and `redis`) before `db`, every step before `db` succeeds and four
writes are made, but to two paths only: the controller file of the first service,
written with `nginx`, holds `redis` when the run ends. -/
theorem processDockerCompose_halts_counterexample :
    ((createReplicationController ((externalsWith true ["output/web-rc.json".data]).env ())
          "web".data (shortNameOf "web".data)
          (serviceWithPorts ["80:8080".data])).toOption.isSome = true ∧
      createReplicationController ((externalsWith true ["output/web-rc.json".data]).env ())
          "db".data (shortNameOf "db".data) (serviceWithPorts ["x".data]) =
        .error "Invalid container port x for service db".data ∧
      processDockerCompose (externalsWith true ["output/web-rc.json".data])
          (projectOf [("web".data, serviceWithPorts ["80:8080".data]),
            ("db".data, serviceWithPorts ["x".data])])
          () World.empty =
        (World.empty, .error "Failed to wrtie file web-rc.json: permission denied".data)) ∧
    (processDockerCompose (externalsByImage true)
          (projectOf [("averyveryverylongservicename1".data,
              { serviceWithPorts [] with Image := "nginx".data }),
            ("averyveryverylongservicename2".data,
              { serviceWithPorts [] with Image := "redis".data }),
            ("db".data, serviceWithPorts ["x".data])])
          () World.empty =
        ({ files := [("output/averyveryverylongservice-rc.json".data, "nginx".data),
                     ("output/averyveryverylongservice-srv.json".data, "srv".data),
                     ("output/averyveryverylongservice-rc.json".data, "redis".data),
                     ("output/averyveryverylongservice-srv.json".data, "srv".data)],
           stdout := ["output/averyveryverylongservice-rc.json".data,
                      "output/averyveryverylongservice-srv.json".data,
                      "output/averyveryverylongservice-rc.json".data,
                      "output/averyveryverylongservice-srv.json".data] },
         .error "Invalid container port x for service db".data) ∧
      (processDockerCompose (externalsByImage true)
          (projectOf [("averyveryverylongservicename1".data,
              { serviceWithPorts [] with Image := "nginx".data }),
            ("averyveryverylongservicename2".data,
              { serviceWithPorts [] with Image := "redis".data }),
            ("db".data, serviceWithPorts ["x".data])])
          () World.empty).1.contents "output/averyveryverylongservice-rc.json".data =
        some "redis".data ∧
      ((processDockerCompose (externalsByImage true)
          (projectOf [("averyveryverylongservicename1".data,
              { serviceWithPorts [] with Image := "nginx".data }),
            ("averyveryverylongservicename2".data,
              { serviceWithPorts [] with Image := "redis".data }),
            ("db".data, serviceWithPorts ["x".data])])
          () World.empty).1.files.map Prod.fst).dedup.length = 2) := by
  decide

/-- C18, amended: if the services before the i-th one are processed without a failure
(in their field mapping, their serialization, their file writes and their companion
object), the paths of their files are pairwise distinct, and the field mapping of the
i-th service fails (malformed port, unknown restart policy, or volume spec without a
colon), then the run ends with an error in the world reached after the services before
it: no file is written and no path printed for the i-th or a later service; exactly the
two files of each earlier service have been written, `2(i-1)` in all, each holds what
was written to it, and every other file is as it was before the run. -/
theorem processDockerCompose_halts {R S : Type} (x : Externals R S) (dockerCompose : Project)
    (r r1 : R) (w w1 : World) (pre post : List Str) (name : Str) (service : ServiceConfig)
    (hkeys : dockerCompose.Keys = pre ++ name :: post)
    (hpre : processDockerComposeLoop x dockerCompose pre r w = (w1, .ok r1))
    (hdistinct : ((pre.map (servicePaths x)).flatten).Nodup)
    (hget : dockerCompose.Get name = some service)
    (hfail : (∃ e, configurePorts name service = .error e) ∨
      (∃ e, configureRestartPolicy name service = .error e) ∨
      (∃ e, configureVolumes service = .error e)) :
    (∃ e, processDockerCompose x dockerCompose r w = (w1, .error e)) ∧
    w1.files.map Prod.fst = w.files.map Prod.fst ++ (pre.map (servicePaths x)).flatten ∧
    w1.stdout = w.stdout ++ (pre.map (servicePaths x)).flatten ∧
    w1.files.length = w.files.length + 2 * pre.length ∧
    (∃ writes : List (Str × Str),
      w1.files = w.files ++ writes ∧
      writes.map Prod.fst = (pre.map (servicePaths x)).flatten ∧
      writes.length = 2 * pre.length ∧
      (writes.map Prod.fst).Nodup ∧
      (∀ p d, (p, d) ∈ writes → w1.contents p = some d) ∧
      (∀ p, p ∉ (pre.map (servicePaths x)).flatten → w1.contents p = w.contents p)) := by
  obtain ⟨e, he⟩ := createReplicationController_error (x.env r1) name (shortNameOf name)
    service hfail
  obtain ⟨h1, h2⟩ := processDockerComposeLoop_ok x dockerCompose pre r r1 w w1 hpre
  obtain ⟨writes, hw1, hw2⟩ := processDockerComposeLoop_writes x dockerCompose pre r r1 w w1 hpre
  have hflat : ∀ l : List Str, ((l.map (servicePaths x)).flatten).length = 2 * l.length := by
    intro l
    induction l with
    | nil => rfl
    | cons a t ih =>
      rw [List.map_cons, List.flatten_cons, List.length_append, ih]
      simp only [servicePaths, List.length_cons, List.length_nil]
      omega
  have hwlen : writes.length = 2 * pre.length := by
    have := congrArg List.length hw2
    rw [List.length_map, hflat] at this
    exact this
  have hnd : (writes.map Prod.fst).Nodup := by rw [hw2]; exact hdistinct
  obtain ⟨c1, c2⟩ := contents_after_writes w.files writes hnd
  refine ⟨⟨e, ?_⟩, h1, h2, ?_, writes, hw1, hw2, hwlen, hnd, ?_, ?_⟩
  · rw [processDockerCompose, hkeys,
      processDockerComposeLoop_append x dockerCompose pre (name :: post) r r1 w w1 hpre,
      processDockerComposeLoop, processService, hget]
    simp only [he]
  · rw [hw1, List.length_append, hwlen]
  · intro p d hmem
    rw [World.contents, hw1]
    exact c1 p d hmem
  · intro p hp
    rw [World.contents, World.contents, hw1]
    exact c2 p (by rw [hw2]; exact hp)

/-- C18, amended, at the services `web` (well formed), `db` (port `x`) and `cache`:
the run ends at `db`; only the two files of `web` are written and each holds what was
written to it. -/
theorem processDockerCompose_halts_witness :
    (∃ e, processDockerCompose (externalsByImage true)
        (projectOf [("web".data, { serviceWithPorts ["80:8080".data] with Image := "nginx".data }),
          ("db".data, serviceWithPorts ["x".data]), ("cache".data, serviceWithPorts [])])
        () World.empty =
      ({ files := [("output/web-rc.json".data, "nginx".data),
                   ("output/web-srv.json".data, "srv".data)],
         stdout := ["output/web-rc.json".data, "output/web-srv.json".data] },
       .error e)) ∧
    (∃ writes : List (Str × Str),
      writes = [("output/web-rc.json".data, "nginx".data),
                ("output/web-srv.json".data, "srv".data)] ∧
      ∀ p d, (p, d) ∈ writes →
        World.contents
          { files := [("output/web-rc.json".data, "nginx".data),
                      ("output/web-srv.json".data, "srv".data)],
            stdout := ["output/web-rc.json".data, "output/web-srv.json".data] } p = some d) := by
  obtain ⟨h1, _, _, _, writes, hw1, _, _, _, hc, _⟩ :=
    processDockerCompose_halts (externalsByImage true)
      (projectOf [("web".data, { serviceWithPorts ["80:8080".data] with Image := "nginx".data }),
        ("db".data, serviceWithPorts ["x".data]), ("cache".data, serviceWithPorts [])])
      () () World.empty
      { files := [("output/web-rc.json".data, "nginx".data),
                  ("output/web-srv.json".data, "srv".data)],
        stdout := ["output/web-rc.json".data, "output/web-srv.json".data] }
      ["web".data] ["cache".data] "db".data (serviceWithPorts ["x".data])
      (by decide) (by decide) (by decide) (by decide)
      (Or.inl ⟨"Invalid container port x for service db".data, by decide⟩)
  refine ⟨h1, writes, ?_, hc⟩
  have : ([] : List (Str × Str)) ++ writes = writes := List.nil_append writes
  rw [← this]
  exact hw1.symm

/-! ## The text fix-up of the display format -/

theorem externalName_replaceLoop_match (rest : Str) :
    strings.replaceLoop externalNameText externalNameComment (externalNameText ++ rest) 0 =
      externalNameComment ++
        strings.replaceLoop externalNameText externalNameComment rest 0 :=
  strings.replaceLoop_match _ _ _ (by decide)

theorem externalName_replaceLoop_skip (c : Char) (t : Str)
    (h : ¬ externalNameText <+: c :: t) :
    strings.replaceLoop externalNameText externalNameComment (c :: t) 0 =
      c :: strings.replaceLoop externalNameText externalNameComment t 0 := by
  have hp : ¬ externalNameText.isPrefixOf (c :: t) = true := fun e =>
    h (List.isPrefixOf_iff_prefix.mp e)
  rw [strings.replaceLoop, if_neg hp]

/-- A text without `#` at the start of the replaced text was at the start of the input. -/
theorem externalName_prefix_of_replaced (w : Str) :
    ∀ t : Str, '#' ∉ w →
      w <+: strings.replaceLoop externalNameText externalNameComment t 0 → w <+: t := by
  induction w with
  | nil => intro t _ _; exact List.nil_prefix
  | cons x w ih =>
    intro t hx hpre
    have hx1 : x ≠ '#' := fun e => hx (by simp [e])
    have hx2 : '#' ∉ w := fun e => hx (by simp [e])
    cases t with
    | nil =>
      have : x :: w = [] := List.prefix_nil.mp hpre
      cases this
    | cons c t =>
      by_cases hm : externalNameText <+: c :: t
      · obtain ⟨rest, hrest⟩ := hm
        rw [← hrest, externalName_replaceLoop_match] at hpre
        have h0 : x :: w <+: '#' :: (" ExternalName:".data ++
            strings.replaceLoop externalNameText externalNameComment rest 0) := hpre
        exact absurd (List.cons_prefix_cons.mp h0).1 hx1
      · rw [externalName_replaceLoop_skip c t hm] at hpre
        obtain ⟨e, hw⟩ := List.cons_prefix_cons.mp hpre
        rw [e]
        exact List.cons_prefix_cons.mpr ⟨rfl, ih t hx2 hw⟩

theorem externalName_suffix_scan :
    ∀ k, k < 15 → (externalNameComment.drop k).head? = some 'E' → k = 2 := by
  decide

/-- After the second replacement, every `ExternalName:` has `# ` in front of it. -/
theorem externalName_commented (n : Nat) :
    ∀ s : Str, s.length ≤ n → ∀ a b : Str,
      strings.replaceLoop externalNameText externalNameComment s 0 =
        a ++ externalNameText ++ b → "# ".data <:+ a := by
  induction n with
  | zero =>
    intro s hs a b h
    have : s = [] := List.length_eq_zero.mp (by omega)
    subst this
    rw [strings.replaceLoop] at h
    have := congrArg List.length h
    simp [externalNameText] at this
    omega
  | succ n ih =>
    intro s hs a b h
    cases s with
    | nil =>
      rw [strings.replaceLoop] at h
      have := congrArg List.length h
      simp [externalNameText] at this
      omega
    | cons c t =>
      by_cases hm : externalNameText <+: c :: t
      · obtain ⟨rest, hrest⟩ := hm
        have hlen : rest.length ≤ n := by
          have := congrArg List.length hrest
          simp [externalNameText] at this
          simp only [List.length_cons] at hs
          omega
        rw [← hrest, externalName_replaceLoop_match, List.append_assoc] at h
        rcases List.append_eq_append_iff.mp h with ⟨a', h1, h2⟩ | ⟨c', h1, h2⟩
        · -- the occurrence starts inside the inserted text
          rw [h1]
          exact (ih rest hlen a' b (by rw [h2, List.append_assoc])).trans
            (List.suffix_append _ _)
        · cases c' with
          | nil =>
            rw [List.append_nil] at h1
            rw [List.nil_append] at h2
            exfalso
            have := ih rest hlen [] b (by rw [← h2]; rfl)
            have hl := this.length_le
            simp at hl
          | cons y c' =>
            have hk : a.length < 15 := by
              have := congrArg List.length h1
              simp [externalNameComment] at this
              omega
            have hdrop : externalNameComment.drop a.length = y :: c' := by
              rw [h1, List.drop_left]
            have hy : y = 'E' := by
              have h3 : externalNameText ++ b = y :: (c' ++
                  strings.replaceLoop externalNameText externalNameComment rest 0) := h2
              have h4 : externalNameText ++ b = 'E' :: ("xternalName:".data ++ b) := rfl
              rw [h4] at h3
              injection h3 with h5 _
              exact h5.symm
            have hk2 := externalName_suffix_scan a.length hk (by rw [hdrop, hy]; rfl)
            have ha : a = externalNameComment.take 2 := by
              have := congrArg (List.take 2) h1
              rw [List.take_left' hk2] at this
              exact this.symm
            rw [ha]
            exact ⟨[], rfl⟩
      · rw [externalName_replaceLoop_skip c t hm] at h
        cases a with
        | nil =>
          exfalso
          apply hm
          have h4 : ([] : Str) ++ externalNameText ++ b = 'E' :: ("xternalName:".data ++ b) := rfl
          rw [h4] at h
          injection h with h5 h6
          have hpre : "xternalName:".data <+:
              strings.replaceLoop externalNameText externalNameComment t 0 := ⟨b, h6.symm⟩
          have := externalName_prefix_of_replaced _ t (by decide) hpre
          rw [h5]
          exact List.cons_prefix_cons.mpr ⟨rfl, this⟩
        | cons y a =>
          simp only [List.cons_append] at h
          injection h with _ h6
          have hlen : t.length ≤ n := by
            simp only [List.length_cons] at hs
            omega
          exact (ih t hlen a b h6).trans (List.suffix_cons y a)

/-- The second replacement never shortens a text, and lengthens every text that holds
`ExternalName:`. -/
theorem externalName_length (n : Nat) :
    ∀ s : Str, s.length ≤ n →
      s.length ≤ (strings.replaceLoop externalNameText externalNameComment s 0).length ∧
      (externalNameText <:+: s →
        s.length < (strings.replaceLoop externalNameText externalNameComment s 0).length) := by
  induction n with
  | zero =>
    intro s hs
    have : s = [] := List.length_eq_zero.mp (by omega)
    subst this
    refine ⟨Nat.le_refl _, fun h => ?_⟩
    have := List.infix_nil.mp h
    cases this
  | succ n ih =>
    intro s hs
    cases s with
    | nil =>
      refine ⟨Nat.le_refl _, fun h => ?_⟩
      have := List.infix_nil.mp h
      cases this
    | cons c t =>
      by_cases hm : externalNameText <+: c :: t
      · obtain ⟨rest, hrest⟩ := hm
        have hl := congrArg List.length hrest
        simp [externalNameText] at hl
        have hlen : rest.length ≤ n := by
          simp only [List.length_cons] at hs
          omega
        have h1 := (ih rest hlen).1
        have e1 : externalNameText.length = 13 := by decide
        have e2 : externalNameComment.length = 15 := by decide
        rw [← hrest, externalName_replaceLoop_match, List.length_append, List.length_append,
          e1, e2]
        constructor
        · omega
        · intro _; omega
      · have hlen : t.length ≤ n := by
          simp only [List.length_cons] at hs
          omega
        obtain ⟨h1, h2⟩ := ih t hlen
        rw [externalName_replaceLoop_skip c t hm]
        simp only [List.length_cons]
        constructor
        · omega
        · intro h
          rcases List.infix_cons_iff.mp h with h3 | h3
          · exact absurd h3 hm
          · have := h2 h3
            omega

/-- What holds of the text fix-up of `writeFile` for every input text: in the result
every `ExternalName:` has `# ` in front of it; a text that holds neither the escaped
sentinel nor `ExternalName:` is returned unchanged; and the second replacement changes
a text exactly when `ExternalName:` occurs in it. -/
theorem fixDisplayText_spec (data : Str) :
    (∀ a b : Str, fixDisplayText data = a ++ externalNameText ++ b → "# ".data <:+ a) ∧
    (¬ escapedSentinel <:+: data → ¬ externalNameText <:+: data →
      fixDisplayText data = data) ∧
    (strings.Replace data externalNameText externalNameComment = data ↔
      ¬ externalNameText <:+: data) := by
  have hne : externalNameText ≠ [] := by decide
  refine ⟨?_, ?_, ?_, ?_⟩
  · intro a b h
    have h0 : fixDisplayText data =
        strings.Replace (strings.Replace data escapedSentinel "".data)
          externalNameText externalNameComment := rfl
    have h' : strings.replaceLoop externalNameText externalNameComment
        (strings.Replace data escapedSentinel "".data) 0 = a ++ externalNameText ++ b := by
      rw [← h, h0, strings.Replace.eq_def _ externalNameText, if_neg hne]
    exact externalName_commented _ _ (Nat.le_refl _) a b h'
  · intro h1 h2
    have h0 : fixDisplayText data =
        strings.Replace (strings.Replace data escapedSentinel "".data)
          externalNameText externalNameComment := rfl
    rw [h0, strings.replace_of_not_infix data escapedSentinel _ (by decide) h1]
    exact strings.replace_of_not_infix data _ _ hne h2
  · intro h hin
    have hlt := (externalName_length _ data (Nat.le_refl _)).2 hin
    rw [strings.Replace, if_neg hne] at h
    rw [h] at hlt
    exact Nat.lt_irrefl _ hlt
  · intro h
    exact strings.replace_of_not_infix data _ _ hne h

/-- C19 fails on the code: the fix-up of `writeFile` changes the key `myExternalName:`
into `my# ExternalName:` and the string value `"see ExternalName: x"` into
`"see # ExternalName: x"`, although neither is a field named `ExternalName:`; the
field itself is commented out as intended. -/
theorem fixDisplayText_other_text_altered :
    fixDisplayText "  myExternalName: v\n".data = "  my# ExternalName: v\n".data ∧
    fixDisplayText "    value: \"see ExternalName: x\"\n".data =
      "    value: \"see # ExternalName: x\"\n".data ∧
    fixDisplayText "  ExternalName: db.example.com\n".data =
      "  # ExternalName: db.example.com\n".data := by
  decide
